import Mathlib

/-! # Weighted rendezvous hashing (`rendezvous.go`)

A shallow embedding of the Go package `rendezvous` and theorems about it.

Modelling conventions.

* `float64` values are the type `F64`: NaN, the two infinities and the finite
  values, the latter as rationals.  Comparisons follow IEEE 754 (every
  comparison with NaN is false).  The sign of a zero is not recorded.
* Correctly rounded arithmetic is `FloatEnv`: a rounding function and the
  result of `math.Log` on positive finite arguments are parameters, constrained
  only by laws that IEEE 754 arithmetic satisfies.
* `map[string]*WeightedMember` is an association list with distinct keys
  (`AList`).  Go enumerates a map in an unspecified order, so every operation
  that ranges over the map takes the enumeration `enum` as an argument; theorems
  assume `enum` is a permutation of the entries.
* `quickselect.QuickSelect` belongs to the package
  `github.com/wangjohn/quickselect`; it is a parameter carrying the contract its
  documentation states.
* The `sync.RWMutex` is not modelled: operations are the sequential functions.
* Byte slices are values (`Bytes`).  Where aliasing matters, `Memory` holds the
  backing arrays and `Slice` is a window into one; `ComputeWeightedScoreMem` is
  `ComputeWeightedScore` over that memory.
-/

namespace rendezvous

/-! ## float64 -/

/-- The values of a Go `float64` as far as this package observes them. -/
inductive F64 where
  | nan
  | ninf
  | fin (q : ℚ)
  | pinf
  deriving DecidableEq

namespace F64

/-- Go `a < b` on `float64`. -/
def lt : F64 → F64 → Bool
  | nan, _ => false
  | _, nan => false
  | ninf, ninf => false
  | ninf, _ => true
  | fin _, ninf => false
  | fin a, fin b => decide (a < b)
  | fin _, pinf => true
  | pinf, _ => false

/-- Go `a > b` on `float64`. -/
def gt (a b : F64) : Bool := lt b a

/-- Go `a == b` on `float64`: NaN is equal to nothing. -/
def eq : F64 → F64 → Bool
  | ninf, ninf => true
  | fin a, fin b => decide (a = b)
  | pinf, pinf => true
  | _, _ => false

/-- Go `a <= b` on `float64`. -/
def le (a b : F64) : Bool := lt a b || eq a b

/-- Go `a >= b` on `float64`. -/
def ge (a b : F64) : Bool := le b a

/-- Go unary minus on `float64`. -/
def neg : F64 → F64
  | nan => nan
  | ninf => pinf
  | fin q => fin (-q)
  | pinf => ninf

/-- A value that is `+Inf` or finite and not negative. -/
def Nonneg (x : F64) : Prop := x = pinf ∨ ∃ q : ℚ, 0 ≤ q ∧ x = fin q

/-- The rationals a finite `float64` can hold: `m * 2^e` with a significand of
at most 53 bits and an exponent in the range of the format. -/
def Representable (q : ℚ) : Prop :=
  ∃ (m e : ℤ), |m| < 2 ^ 53 ∧ -1074 ≤ e ∧ e ≤ 971 ∧ q = (m : ℚ) * (2 : ℚ) ^ e

/-- A total preorder extending `le` to NaN (placed below everything); only the
reference selection `quickselect.bySorting` sorts with it. -/
def leTotal (a b : F64) : Prop := a = nan ∨ (b ≠ nan ∧ lt b a = false)

instance (a b : F64) : Decidable (leTotal a b) := by
  unfold leTotal
  infer_instance

end F64

/-- Correctly rounded `float64` arithmetic, as parameters.
`round q` is the `float64` nearest to the exact result `q` (an infinity on
overflow); `logFin q` is the finite value `math.Log` returns at a positive
finite `q`.  The laws hold for IEEE 754 round-to-nearest and for Go's
`math.Log`. -/
structure FloatEnv where
  round : ℚ → F64
  logFin : ℚ → ℚ
  round_zero : round 0 = F64.fin 0
  round_mono : ∀ a b : ℚ, a ≤ b → F64.le (round a) (round b) = true
  logFin_neg : ∀ q : ℚ, 0 < q → q < 1 → logFin q < 0

namespace FloatEnv

/-- Go `a * b` on `float64`. -/
def mul (env : FloatEnv) : F64 → F64 → F64
  | F64.nan, _ => F64.nan
  | _, F64.nan => F64.nan
  | F64.fin a, F64.fin b => env.round (a * b)
  | F64.fin a, F64.pinf => if a = 0 then F64.nan else if 0 < a then F64.pinf else F64.ninf
  | F64.fin a, F64.ninf => if a = 0 then F64.nan else if 0 < a then F64.ninf else F64.pinf
  | F64.pinf, F64.fin b => if b = 0 then F64.nan else if 0 < b then F64.pinf else F64.ninf
  | F64.ninf, F64.fin b => if b = 0 then F64.nan else if 0 < b then F64.ninf else F64.pinf
  | F64.pinf, F64.pinf => F64.pinf
  | F64.pinf, F64.ninf => F64.ninf
  | F64.ninf, F64.pinf => F64.ninf
  | F64.ninf, F64.ninf => F64.pinf

/-- Go `a / b` on `float64`.  A zero divisor is read as `+0` (the carrier does
not record the sign of a zero); `ComputeWeightedScore` never divides by zero. -/
def div (env : FloatEnv) : F64 → F64 → F64
  | F64.nan, _ => F64.nan
  | _, F64.nan => F64.nan
  | F64.fin a, F64.fin b =>
    if b = 0 then (if a = 0 then F64.nan else if 0 < a then F64.pinf else F64.ninf)
    else env.round (a / b)
  | F64.fin _, F64.pinf => F64.fin 0
  | F64.fin _, F64.ninf => F64.fin 0
  | F64.pinf, F64.fin b => if 0 ≤ b then F64.pinf else F64.ninf
  | F64.ninf, F64.fin b => if 0 ≤ b then F64.ninf else F64.pinf
  | F64.pinf, F64.pinf => F64.nan
  | F64.pinf, F64.ninf => F64.nan
  | F64.ninf, F64.pinf => F64.nan
  | F64.ninf, F64.ninf => F64.nan

/-- Go `math.Log`: `Log(+Inf) = +Inf`, `Log(0) = -Inf`, `Log(x < 0) = NaN`,
`Log(NaN) = NaN`. -/
def Log (env : FloatEnv) : F64 → F64
  | F64.nan => F64.nan
  | F64.ninf => F64.nan
  | F64.pinf => F64.pinf
  | F64.fin q => if q < 0 then F64.nan else if q = 0 then F64.ninf else F64.fin (env.logFin q)

/-- A reference arithmetic for evaluating examples: no rounding, and the first
two terms of the series `ln q = 2 (z + z^3/3 + ...)`, `z = (q-1)/(q+1)`. -/
def exact : FloatEnv where
  round := F64.fin
  logFin := fun q => 2 * ((q - 1) / (q + 1)) * (1 + ((q - 1) / (q + 1)) ^ 2 / 3)
  round_zero := rfl
  round_mono := by
    intro a b h
    rcases lt_or_eq_of_le h with h | h
    · simp [F64.le, F64.lt, h]
    · simp [F64.le, F64.eq, h]
  logFin_neg := by
    intro q h0 h1
    have hz : (q - 1) / (q + 1) < 0 := div_neg_of_neg_of_pos (by linarith) (by linarith)
    have hp : 0 < 1 + ((q - 1) / (q + 1)) ^ 2 / 3 := by positivity
    exact mul_neg_of_neg_of_pos (by linarith) hp

/-- Exact arithmetic with the overflow of `float64`: a result of magnitude
`2^1024` or more becomes an infinity, as it does under IEEE 754 rounding; every
other result is kept exact.  The logarithm is that of `exact`. -/
def overflowing : FloatEnv where
  round := fun q =>
    if (2 : ℚ) ^ 1024 ≤ q then F64.pinf else if q ≤ -(2 : ℚ) ^ 1024 then F64.ninf else F64.fin q
  logFin := exact.logFin
  round_zero := by
    have h1 : ¬ ((2 : ℚ) ^ 1024 ≤ 0) := not_le.mpr (by positivity)
    have h2 : ¬ ((0 : ℚ) ≤ -(2 : ℚ) ^ 1024) := by
      have : (0 : ℚ) < (2 : ℚ) ^ 1024 := by positivity
      linarith
    simp only [h1, h2, if_false]
  round_mono := by
    intro a b h
    have hpos : (0 : ℚ) < (2 : ℚ) ^ 1024 := by positivity
    by_cases ha1 : (2 : ℚ) ^ 1024 ≤ a
    · have hb1 : (2 : ℚ) ^ 1024 ≤ b := le_trans ha1 h
      simp [ha1, hb1, F64.le, F64.eq]
    · by_cases ha2 : a ≤ -(2 : ℚ) ^ 1024
      · by_cases hb1 : (2 : ℚ) ^ 1024 ≤ b
        · simp [ha1, ha2, hb1, F64.le, F64.lt]
        · by_cases hb2 : b ≤ -(2 : ℚ) ^ 1024
          · simp [ha1, ha2, hb1, hb2, F64.le, F64.eq]
          · simp [ha1, ha2, hb1, hb2, F64.le, F64.lt]
      · have hb2 : ¬ b ≤ -(2 : ℚ) ^ 1024 := fun hb => ha2 (le_trans h hb)
        by_cases hb1 : (2 : ℚ) ^ 1024 ≤ b
        · simp [ha1, ha2, hb1, F64.le, F64.lt]
        · simp only [ha1, ha2, hb1, hb2, if_false, F64.le, F64.lt, F64.eq, Bool.or_eq_true,
            decide_eq_true_eq]
          exact lt_or_eq_of_le h
  logFin_neg := exact.logFin_neg

end FloatEnv

/-! ## The package -/

/-- Go `var FiftyThreeOnes = uint64(0xFFFFFFFFFFFFFFFF >> (64 - 53))`. -/
def FiftyThreeOnes : Nat := (0xFFFFFFFFFFFFFFFF >>> (64 - 53)) % 2 ^ 64

/-- Go `var FiftyThreeZeros = float64(1 << 53)`. -/
def FiftyThreeZeros : ℚ := ((1 <<< 53 : Nat) : ℚ)

/-- Go `consistent.ErrInsufficientMemberCount`, the only error value of the package. -/
inductive GoError where
  | ErrInsufficientMemberCount
  deriving DecidableEq

/-- A Go `[]byte`. -/
abbrev Bytes := List Nat

/-- Go `[]byte(s)`: the UTF-8 encoding of a string. -/
def bytesOf (s : String) : Bytes := (s.data.flatMap String.utf8EncodeChar).map UInt8.toNat

/-- Go `type Hasher interface { Sum64([]byte) uint64 }`; results are read modulo `2^64`. -/
abbrev Hasher := Bytes → Nat

/-- Go `type WeightedMember interface { String() string; Weight() float64 }`.
`payload` stands for whatever else the implementing value carries. -/
structure WeightedMember where
  Weight : F64
  payload : Nat
  String : String
  deriving DecidableEq

/-- Go `type Config struct { Hasher Hasher }`; `none` is the nil interface. -/
structure Config where
  Hasher : Option Hasher

/-- Go `map[string]*WeightedMember`. -/
abbrev MemberMap := AList (fun _ : String => WeightedMember)

/-- Go `type Rendezvous struct`, without the mutex. -/
structure Rendezvous where
  config : Config
  hasher : Hasher
  members : MemberMap
  ring : AList (fun _ : Nat => WeightedMember)

/-- What a Go call does: it returns, or it aborts with a run-time panic. -/
inductive Outcome (α : Type) where
  | returned (a : α)
  | panicked

/-- Go `type byScore []struct { string; float64 }`. -/
abbrev byScore := List (String × F64)

namespace byScore

/-- Go `func (scores byScore) Len() int`. -/
def Len (scores : byScore) : Int := scores.length

/-- Go `func (scores byScore) Swap(i, j int)`. -/
def Swap (scores : byScore) (i j : Nat) : byScore :=
  match scores[i]?, scores[j]? with
  | some a, some b => (scores.set i b).set j a
  | _, _ => scores

/-- Go `func (scores byScore) Less(i, j int) bool`:
`scores[i].float64 < scores[j].float64`. -/
def Less (scores : byScore) (i j : Nat) : Bool :=
  match scores[i]?, scores[j]? with
  | some a, some b => F64.lt a.2 b.2
  | _, _ => false

end byScore

/-- The external function `quickselect.QuickSelect(data, k)` of
`github.com/wangjohn/quickselect`, with the contract of its documentation: it
reorders `data` in place (only through `Swap`), and afterwards the first `k`
elements are the `k` smallest under `Less`, in no particular order.  The second
law is required only where `Less` is a strict weak order (no NaN score).  The
function always returns; its `error` result, which `GetClosestN` discards, is
not modelled. -/
structure quickselect where
  QuickSelect : byScore → Int → byScore
  perm : ∀ (data : byScore) (k : Int), (QuickSelect data k).Perm data
  smallest_first : ∀ (data : byScore) (k : Int), (∀ x ∈ data, x.2 ≠ F64.nan) →
    ∀ i j : Nat, (i : Int) < k → k ≤ (j : Int) → j < data.length →
      byScore.Less (QuickSelect data k) j i = false

namespace quickselect

/-- The order the reference selection sorts by: ascending score. -/
def scoreLe (x y : String × F64) : Prop := F64.leTotal x.2 y.2

instance : DecidableRel scoreLe := fun x y => by
  unfold scoreLe
  infer_instance

instance : IsTotal (String × F64) scoreLe where
  total := by
    intro x y
    rcases x with ⟨_, a⟩
    rcases y with ⟨_, b⟩
    cases a <;> cases b <;> simp [scoreLe, F64.leTotal, F64.lt]
    exact le_total _ _

instance : IsTrans (String × F64) scoreLe where
  trans := by
    intro x y z
    rcases x with ⟨_, a⟩
    rcases y with ⟨_, b⟩
    rcases z with ⟨_, c⟩
    cases a <;> cases b <;> cases c <;> simp [scoreLe, F64.leTotal, F64.lt]
    exact fun h1 h2 => le_trans h1 h2

/-- A reference selection meeting the contract: a call with `k` outside
`1..Len` changes nothing, any other call sorts by ascending score. -/
def bySorting : quickselect where
  QuickSelect := fun data k =>
    if 1 ≤ k ∧ k ≤ (data.length : Int) then data.insertionSort scoreLe else data
  perm := by
    intro data k
    by_cases h : 1 ≤ k ∧ k ≤ (data.length : Int)
    · simp only [h, and_self, if_true]
      exact List.perm_insertionSort _ _
    · simp only [h, if_false]
      exact List.Perm.refl _
  smallest_first := by
    intro data k hnan i j hik hkj hj
    have hk : 1 ≤ k ∧ k ≤ (data.length : Int) := by omega
    simp only [hk, and_self, if_true]
    have hp : (data.insertionSort scoreLe).Perm data := List.perm_insertionSort _ _
    have hs : (data.insertionSort scoreLe).Sorted scoreLe := List.sorted_insertionSort _ _
    have hlen : (data.insertionSort scoreLe).length = data.length := hp.length_eq
    have hij : i < j := by omega
    have hj2 : j < (data.insertionSort scoreLe).length := by omega
    have hi2 : i < (data.insertionSort scoreLe).length := by omega
    have hle := List.pairwise_iff_getElem.mp hs i j hi2 hj2 hij
    have hin : (data.insertionSort scoreLe)[i] ∈ data :=
      hp.subset (List.getElem_mem _)
    unfold byScore.Less
    rw [List.getElem?_eq_getElem hj2, List.getElem?_eq_getElem hi2]
    rcases hle with h | h
    · exact absurd h (hnan _ hin)
    · exact h.2

end quickselect

/-- Go `func IntToFloat(value uint64) float64`:
`float64(value & FiftyThreeOnes) / FiftyThreeZeros`.  The integer is below
`2^53`, so its conversion is exact, and dividing by `2^53` only changes the
exponent: the quotient is exact as well. -/
def IntToFloat (value : Nat) : F64 :=
  F64.fin ((((value % 2 ^ 64) &&& FiftyThreeOnes : Nat) : ℚ) / FiftyThreeZeros)

namespace Rendezvous

/-- Go `func (r *Rendezvous) ComputeWeightedScore(m WeightedMember, key []byte) float64`. -/
def ComputeWeightedScore (env : FloatEnv) (r : Rendezvous) (m : WeightedMember) (key : Bytes) :
    F64 :=
  let hash := r.hasher (bytesOf m.String ++ key) % 2 ^ 64
  let score := env.div (F64.fin 1) (F64.neg (env.Log (IntToFloat hash)))
  env.mul m.Weight score

/-- One iteration of the loop of `LocateKey`; the state is
`(highest_score, member)`. -/
def locateStep (env : FloatEnv) (r : Rendezvous) (key : Bytes)
    (st : F64 × Option WeightedMember) (e : Sigma fun _ : String => WeightedMember) :
    F64 × Option WeightedMember :=
  let score := r.ComputeWeightedScore env e.2 key
  if F64.gt score st.1 then (score, some e.2) else st

/-- Go `func (r *Rendezvous) LocateKey(key []byte) (member WeightedMember)`;
`enum` is the order in which `range r.members` visits the map, `none` is the
nil member. -/
def LocateKey (env : FloatEnv) (r : Rendezvous)
    (enum : List (Sigma fun _ : String => WeightedMember)) (key : Bytes) :
    Option WeightedMember :=
  (enum.foldl (r.locateStep env key) (F64.fin (-1), none)).2

/-- The loop `for c := 0; c < count; c++ { members[c] = *r.members[scores[c].string] }`
of `GetClosestN`, over the indices `cs` still to visit; `none` is a panic
(index out of range, or dereference of the nil pointer of a missing key). -/
def closestLoop (r : Rendezvous) (scores : byScore) : List Nat → Option (List WeightedMember)
  | [] => some []
  | c :: cs =>
    match scores[c]? with
    | none => none
    | some s =>
      match r.members.lookup s.1 with
      | none => none
      | some member =>
        match closestLoop r scores cs with
        | none => none
        | some members => some (member :: members)

/-- Go `func (r *Rendezvous) GetClosestN(key []byte, count int) (members []WeightedMember, err error)`.
The result is the registry after the call together with the returned pair
`(members, err)` (nil slice as the empty list, nil error as `none`), or a
panic; `make` with a negative length panics. -/
def GetClosestN (env : FloatEnv) (qs : quickselect) (r : Rendezvous)
    (enum : List (Sigma fun _ : String => WeightedMember)) (key : Bytes) (count : Int) :
    Rendezvous × Outcome (List WeightedMember × Option GoError) :=
  if count > (r.members.entries.length : Int) then
    (r, Outcome.returned ([], some GoError.ErrInsufficientMemberCount))
  else
    let scores : byScore := enum.map fun e => (e.1, r.ComputeWeightedScore env e.2 key)
    let scores := qs.QuickSelect scores count
    if count < 0 then (r, Outcome.panicked)
    else
      match r.closestLoop scores (List.range count.toNat) with
      | none => (r, Outcome.panicked)
      | some members => (r, Outcome.returned (members, none))

/-- Go `func (r *Rendezvous) add(member WeightedMember)`:
`r.members[member.String()] = &member`. -/
def add (r : Rendezvous) (member : WeightedMember) : Rendezvous :=
  { r with members := r.members.insert member.String member }

/-- Go `func (r *Rendezvous) Add(member WeightedMember)`. -/
def Add (r : Rendezvous) (member : WeightedMember) : Rendezvous :=
  if (r.members.lookup member.String).isSome then r else r.add member

/-- Go `func (r *Rendezvous) Remove(name string)`. -/
def Remove (r : Rendezvous) (name : String) : Rendezvous :=
  if (r.members.lookup name).isNone then r
  else { r with members := r.members.erase name }

/-- Go `func (r *Rendezvous) GetMembers() (members []WeightedMember)`; `enum`
is the order in which `range r.members` visits the map. -/
def GetMembers (_r : Rendezvous) (enum : List (Sigma fun _ : String => WeightedMember)) :
    List WeightedMember :=
  enum.foldl (fun members e => members ++ [e.2]) []

/-- The enumerations Go may produce for `range r.members`: each entry once, in
any order. -/
def Enumerates (r : Rendezvous) (enum : List (Sigma fun _ : String => WeightedMember)) : Prop :=
  enum.Perm r.members.entries

/-- Every map key is the name of the member stored under it; `add` is the only
writer of the map and stores `member` under `member.String()`. -/
def KeysAreNames (r : Rendezvous) : Prop :=
  ∀ e ∈ r.members.entries, e.1 = e.2.String

end Rendezvous

/-- Go `func New(members []WeightedMember, config Config) *Rendezvous`;
`xxh3` is the external default hash (`DefaultHasher.Sum64` is `xxh3.Hash`). -/
def New (xxh3 : Hasher) (members : List WeightedMember) (config : Config) : Rendezvous :=
  let r : Rendezvous :=
    { config := config
      hasher := match config.Hasher with
        | none => xxh3
        | some h => h
      members := ∅
      ring := ∅ }
  members.foldl (fun r member => r.add member) r

/-! ## The score with explicit memory, and the score of the spec -/

/-- Go memory as far as byte slices see it: the backing arrays, each addressed
by its index in the list. -/
structure Memory where
  arrays : List (List Nat)

/-- A Go `[]byte` value: a window of `len` bytes, extensible to `cap` bytes,
into the backing array `array`, starting at `offset`. -/
structure Slice where
  array : Nat
  offset : Nat
  len : Nat
  cap : Nat

namespace Memory

/-- The bytes a slice shows. -/
def read (mem : Memory) (s : Slice) : Bytes :=
  ((mem.arrays.getD s.array []).drop s.offset).take s.len

/-- Go `[]byte(str)`: a fresh backing array holding the bytes of the string.
`spare` is the extra capacity the runtime chooses to give it. -/
def fromString (mem : Memory) (str : String) (spare : Nat) : Memory × Slice :=
  ({ arrays := mem.arrays ++ [bytesOf str ++ List.replicate spare 0] },
    { array := mem.arrays.length, offset := 0, len := (bytesOf str).length,
      cap := (bytesOf str).length + spare })

/-- Go `append(dst, src...)`, `src` being the bytes read from the source slice:
when the capacity of `dst` suffices the bytes are written into its backing
array behind its last element, otherwise everything is copied into a fresh
array (`spare` being the extra capacity the runtime chooses). -/
def append (mem : Memory) (dst : Slice) (src : Bytes) (spare : Nat) : Memory × Slice :=
  if dst.len + src.length ≤ dst.cap then
    let arr := mem.arrays.getD dst.array []
    ({ arrays := mem.arrays.set dst.array
        (arr.take (dst.offset + dst.len) ++ src
          ++ arr.drop (dst.offset + dst.len + src.length)) },
      { dst with len := dst.len + src.length })
  else
    ({ arrays := mem.arrays ++ [mem.read dst ++ src ++ List.replicate spare 0] },
      { array := mem.arrays.length, offset := 0, len := dst.len + src.length,
        cap := dst.len + src.length + spare })

end Memory

/-- Go `func (r *Rendezvous) ComputeWeightedScore(m WeightedMember, key []byte) float64`
with the memory made explicit: `key` is a slice into the memory `mem`, and the
result is the memory after the call together with the score.  `spare1` and
`spare2` are the capacities the runtime chooses for the two allocations. -/
def Rendezvous.ComputeWeightedScoreMem (env : FloatEnv) (r : Rendezvous) (m : WeightedMember)
    (key : Slice) (spare1 spare2 : Nat) (mem : Memory) : Memory × F64 :=
  let name := mem.fromString m.String spare1
  let buf := name.1.append name.2 (name.1.read key) spare2
  let hash := r.hasher (buf.1.read buf.2) % 2 ^ 64
  let score := env.div (F64.fin 1) (F64.neg (env.Log (IntToFloat hash)))
  (buf.1, env.mul m.Weight score)

namespace Spec

/-- Spec section 4.2, in the spec's words: "takes the low 53 bits of the hash
value and divides by 2^53". -/
def uniform_conversion (v : Nat) : F64 := F64.fin (((v % 2 ^ 53 : Nat) : ℚ) / 2 ^ 53)

/-- Spec section 4.3, in the spec's words:
`score(member, key) = weight(member) * (1 / -ln(uniform_conversion(hash(name(member) || key))))`,
a function of the weight, the name and the key; `hash` yields a 64-bit value. -/
def score (env : FloatEnv) (hash : Hasher) (weight : F64) (name : String) (key : Bytes) : F64 :=
  env.mul weight
    (env.div (F64.fin 1) (F64.neg (env.Log (uniform_conversion (hash (bytesOf name ++ key)
      % 2 ^ 64)))))

end Spec

/-! ## Example data

A two-member registry used to instantiate the theorems below. -/

namespace Example

/-- A hasher that looks at the first byte only: names starting with `a` hash to
`2^51` (unit float `1/4`), names starting with `b` to `2^52` (unit float `1/2`),
everything else to `0`. -/
def hasher : Hasher := fun b =>
  match b.head? with
  | some 97 => 2 ^ 51
  | some 98 => 2 ^ 52
  | _ => 0

/-- Member `a`, weight 1. -/
def nodeA : WeightedMember := { Weight := F64.fin 1, payload := 0, String := "a" }

/-- Member `b`, weight 1. -/
def nodeB : WeightedMember := { Weight := F64.fin 1, payload := 0, String := "b" }

/-- Member `c`, weight 1. -/
def nodeC : WeightedMember := { Weight := F64.fin 1, payload := 0, String := "c" }

/-- Another member named `a`, of weight 2. -/
def heavyA : WeightedMember := { Weight := F64.fin 2, payload := 7, String := "a" }

/-- Another member named `c`, of weight 2. -/
def heavyC : WeightedMember := { Weight := F64.fin 2, payload := 0, String := "c" }

/-- A member named `b` of weight `1.5 * 2^1023`, a finite `float64`. -/
def hugeB : WeightedMember := { Weight := F64.fin (3 * 2 ^ 1022), payload := 0, String := "b" }

/-- A member named `b` of weight `1.75 * 2^1023`, a finite `float64`. -/
def hugerB : WeightedMember := { Weight := F64.fin (7 * 2 ^ 1021), payload := 0, String := "b" }

/-- Member `d`, weight 1. -/
def nodeD : WeightedMember := { Weight := F64.fin 1, payload := 0, String := "d" }

/-- A member named `b` of negative weight. -/
def negB : WeightedMember := { Weight := F64.fin (-2), payload := 0, String := "b" }

/-- The key `k`. -/
def key : Bytes := [107]

/-- The registry `New([a, b], Config{Hasher: hasher})`. -/
def registry : Rendezvous := New hasher [nodeA, nodeB] { Hasher := some hasher }

/-- The registry `New([c, d], Config{Hasher: hasher})`: both names hash to 0. -/
def tieRegistry : Rendezvous := New hasher [nodeC, nodeD] { Hasher := some hasher }

/-- The registry `New([a, c, d], Config{Hasher: hasher})`: `c` and `d` tie
below `a`. -/
def loserTieRegistry : Rendezvous :=
  New hasher [nodeA, nodeC, nodeD] { Hasher := some hasher }

/-- The registry `New([negB], Config{Hasher: hasher})`. -/
def negRegistry : Rendezvous := New hasher [negB] { Hasher := some hasher }

/-- A memory holding one array, the bytes of the key `k`. -/
def memory : Memory := { arrays := [[107]] }

/-- The slice showing the whole of that array. -/
def keySlice : Slice := { array := 0, offset := 0, len := 1, cap := 1 }

end Example

/-! # Theorems -/

open Rendezvous

/-! ## Registry lemmas -/

theorem GetMembers_eq_map (r : Rendezvous)
    (enum : List (Sigma fun _ : String => WeightedMember)) :
    r.GetMembers enum = enum.map fun e => e.2 := by
  unfold Rendezvous.GetMembers
  have h : ∀ (l : List (Sigma fun _ : String => WeightedMember)) (acc : List WeightedMember),
      l.foldl (fun members e => members ++ [e.2]) acc = acc ++ l.map fun e => e.2 := by
    intro l
    induction l with
    | nil => intro acc; simp
    | cons x xs ih => intro acc; simp [ih]
  simpa using h enum []

theorem Add_hasher (r : Rendezvous) (m : WeightedMember) : (r.Add m).hasher = r.hasher := by
  unfold Rendezvous.Add Rendezvous.add
  split <;> rfl

theorem Remove_hasher (r : Rendezvous) (n : String) : (r.Remove n).hasher = r.hasher := by
  unfold Rendezvous.Remove
  split <;> rfl

theorem Add_of_mem (r : Rendezvous) (m : WeightedMember)
    (h : (r.members.lookup m.String).isSome = true) : r.Add m = r := by
  simp [Rendezvous.Add, h]

theorem Add_of_not_mem (r : Rendezvous) (m : WeightedMember)
    (h : r.members.lookup m.String = none) : r.Add m = r.add m := by
  simp [Rendezvous.Add, h]

theorem add_entries_of_not_mem (r : Rendezvous) (m : WeightedMember)
    (h : r.members.lookup m.String = none) :
    (r.add m).members.entries = ⟨m.String, m⟩ :: r.members.entries := by
  unfold Rendezvous.add
  exact AList.insert_entries_of_neg (AList.lookup_eq_none.mp h)

theorem KeysAreNames_add (r : Rendezvous) (m : WeightedMember) (h : r.KeysAreNames) :
    (r.add m).KeysAreNames := by
  intro e he
  unfold Rendezvous.add at he
  rw [AList.insert_entries] at he
  rcases List.mem_cons.mp he with rfl | he
  · rfl
  · exact h e ((List.kerase_sublist _ _).subset he)

theorem KeysAreNames_Add (r : Rendezvous) (m : WeightedMember) (h : r.KeysAreNames) :
    (r.Add m).KeysAreNames := by
  unfold Rendezvous.Add
  split
  · exact h
  · exact KeysAreNames_add r m h

theorem KeysAreNames_Remove (r : Rendezvous) (n : String) (h : r.KeysAreNames) :
    (r.Remove n).KeysAreNames := by
  unfold Rendezvous.Remove
  split
  · exact h
  · intro e he
    exact h e ((List.kerase_sublist _ _).subset he)

theorem KeysAreNames_New (xxh3 : Hasher) (ms : List WeightedMember) (config : Config) :
    (New xxh3 ms config).KeysAreNames := by
  unfold New
  generalize hr : ({ config := config, hasher := _, members := ∅, ring := ∅ } : Rendezvous) = r0
  have h0 : r0.KeysAreNames := by
    subst hr
    intro e he
    simp at he
  clear hr
  induction ms generalizing r0 with
  | nil => simpa using h0
  | cons m ms ih => exact ih _ (KeysAreNames_add r0 m h0)

/-! ## Registry operations -/

/-- C5. With `count` above the number of members, `GetClosestN` returns
`ErrInsufficientMemberCount` with a nil member list, and the registry after the
call is the registry before it. -/
theorem C5_GetClosestN_insufficient (env : FloatEnv) (qs : quickselect) (r : Rendezvous)
    (enum : List (Sigma fun _ : String => WeightedMember)) (key : Bytes) (count : Int)
    (hcount : (r.members.entries.length : Int) < count) :
    r.GetClosestN env qs enum key count
      = (r, Outcome.returned ([], some GoError.ErrInsufficientMemberCount)) := by
  unfold Rendezvous.GetClosestN
  rw [if_pos hcount]


theorem C5_GetClosestN_insufficient_witness :
    Example.registry.GetClosestN FloatEnv.exact quickselect.bySorting
        Example.registry.members.entries Example.key 3
      = (Example.registry, Outcome.returned ([], some GoError.ErrInsufficientMemberCount)) :=
  C5_GetClosestN_insufficient FloatEnv.exact quickselect.bySorting Example.registry
    Example.registry.members.entries Example.key 3 (by decide)


theorem Remove_of_not_mem (r : Rendezvous) (n : String) (h : r.members.lookup n = none) :
    r.Remove n = r := by
  simp [Rendezvous.Remove, h]

theorem Remove_lookup_self (r : Rendezvous) (n : String) :
    (r.Remove n).members.lookup n = none := by
  unfold Rendezvous.Remove
  split
  · rename_i h
    simpa using h
  · exact AList.lookup_erase _ _

theorem Add_lookup_self (r : Rendezvous) (m : WeightedMember) :
    ∃ v, (r.Add m).members.lookup m.String = some v := by
  unfold Rendezvous.Add
  split
  · rename_i h
    exact Option.isSome_iff_exists.mp h
  · exact ⟨m, AList.lookup_insert _⟩

/-- C7. On a registry without members (one whose map is empty, in particular
`New(nil, cfg)`), `LocateKey` returns the nil member for every key, hasher and
enumeration; it is a total function, so it does not fail. -/
theorem C7_LocateKey_empty (env : FloatEnv) (r : Rendezvous)
    (enum : List (Sigma fun _ : String => WeightedMember)) (key : Bytes)
    (henum : r.Enumerates enum)
    (hempty : r.members.entries = [] ∨ ∃ xxh3 config, r = New xxh3 [] config) :
    r.LocateKey env enum key = none := by
  have he : r.members.entries = [] := by
    rcases hempty with h | ⟨xxh3, config, h⟩
    · exact h
    · subst h
      rfl
  unfold Rendezvous.Enumerates at henum
  rw [he] at henum
  rw [List.Perm.eq_nil henum]
  rfl

theorem C7_LocateKey_empty_witness :
    (New Example.hasher [] { Hasher := none }).LocateKey FloatEnv.exact [] Example.key = none :=
  C7_LocateKey_empty FloatEnv.exact (New Example.hasher [] { Hasher := none }) [] Example.key
    (List.Perm.refl _) (Or.inr ⟨Example.hasher, { Hasher := none }, rfl⟩)

/-- C8. `Add` is insert-if-absent.  If the registry has an entry under
`m.String()`, `Add(m)` returns the registry unchanged (the stored member stays).
Otherwise the map after `Add(m)` has one more entry, maps `m.String()` to `m`,
and agrees with the old map on every other name; the other fields are
untouched.  In both cases a second `Add(m)` changes nothing. -/
theorem C8_Add_insert_if_absent (r : Rendezvous) (m : WeightedMember) :
    (∀ old, r.members.lookup m.String = some old →
        r.Add m = r ∧ (r.Add m).members.lookup m.String = some old) ∧
    (r.members.lookup m.String = none →
        (r.Add m).members.entries.length = r.members.entries.length + 1 ∧
        (r.Add m).members.lookup m.String = some m ∧
        (∀ n, n ≠ m.String → (r.Add m).members.lookup n = r.members.lookup n) ∧
        (r.Add m).hasher = r.hasher ∧ (r.Add m).ring = r.ring) ∧
    (r.Add m).Add m = r.Add m := by
  refine ⟨?_, ?_, ?_⟩
  · intro old h
    have h1 : r.Add m = r := Add_of_mem r m (by simp [h])
    exact ⟨h1, by rw [h1]; exact h⟩
  · intro h
    rw [Add_of_not_mem r m h]
    refine ⟨?_, ?_, ?_, rfl, rfl⟩
    · rw [add_entries_of_not_mem r m h]
      rfl
    · exact AList.lookup_insert _
    · intro n hn
      exact AList.lookup_insert_ne hn
  · apply Add_of_mem
    unfold Rendezvous.Add
    split
    · assumption
    · simp [Rendezvous.add, AList.lookup_insert]

theorem C8_Add_insert_if_absent_witness :
    (Example.registry.Add Example.heavyA = Example.registry ∧
      (Example.registry.Add Example.heavyA).members.lookup Example.heavyA.String
        = some Example.nodeA) ∧
    ((Example.registry.Add Example.nodeC).members.entries.length
        = Example.registry.members.entries.length + 1 ∧
      (Example.registry.Add Example.nodeC).members.lookup Example.nodeC.String
        = some Example.nodeC ∧
      (∀ n, n ≠ Example.nodeC.String →
        (Example.registry.Add Example.nodeC).members.lookup n
          = Example.registry.members.lookup n) ∧
      (Example.registry.Add Example.nodeC).hasher = Example.registry.hasher ∧
      (Example.registry.Add Example.nodeC).ring = Example.registry.ring) :=
  ⟨(C8_Add_insert_if_absent Example.registry Example.heavyA).1 Example.nodeA (by decide),
    (C8_Add_insert_if_absent Example.registry Example.nodeC).2.1 (by decide)⟩

/-- C9. `Remove` deletes exactly one name.  If `n` is not in the registry,
`Remove(n)` returns the registry unchanged.  Otherwise the map after `Remove(n)`
has no entry for `n`, has one entry fewer, and agrees with the old map on every
other name.  In both cases a second `Remove(n)` changes nothing. -/
theorem C9_Remove_deletes_one (r : Rendezvous) (n : String) :
    (r.members.lookup n = none → r.Remove n = r) ∧
    (∀ old, r.members.lookup n = some old →
        (r.Remove n).members.lookup n = none ∧
        (r.Remove n).members.entries.length + 1 = r.members.entries.length ∧
        (∀ n', n' ≠ n → (r.Remove n).members.lookup n' = r.members.lookup n') ∧
        (r.Remove n).hasher = r.hasher ∧ (r.Remove n).ring = r.ring) ∧
    (r.Remove n).Remove n = r.Remove n := by
  refine ⟨?_, ?_, ?_⟩
  · exact Remove_of_not_mem r n
  · intro old h
    have hr : r.Remove n = { r with members := r.members.erase n } := by
      simp [Rendezvous.Remove, h]
    rw [hr]
    refine ⟨AList.lookup_erase _ _, ?_, ?_, rfl, rfl⟩
    · have hk : n ∈ r.members.keys := by
        rw [← AList.mem_keys, ← AList.lookup_isSome, h]
        rfl
      have hlen := List.length_erase_of_mem hk
      have h1 : (r.members.erase n).entries.length = (r.members.erase n).keys.length := by
        simp [AList.keys, List.keys]
      have h2 : r.members.entries.length = r.members.keys.length := by
        simp [AList.keys, List.keys]
      have hpos : 0 < r.members.keys.length := List.length_pos_of_mem hk
      show (r.members.erase n).entries.length + 1 = r.members.entries.length
      rw [h1, h2, AList.keys_erase, hlen]
      omega
    · intro n' hn'
      exact AList.lookup_erase_ne hn'
  · exact Remove_of_not_mem _ n (Remove_lookup_self r n)

theorem C9_Remove_deletes_one_witness :
    Example.registry.Remove "c" = Example.registry ∧
    ((Example.registry.Remove "a").members.lookup "a" = none ∧
      (Example.registry.Remove "a").members.entries.length + 1
        = Example.registry.members.entries.length ∧
      (∀ n, n ≠ "a" →
        (Example.registry.Remove "a").members.lookup n = Example.registry.members.lookup n) ∧
      (Example.registry.Remove "a").hasher = Example.registry.hasher ∧
      (Example.registry.Remove "a").ring = Example.registry.ring) :=
  ⟨(C9_Remove_deletes_one Example.registry "c").1 (by decide),
    (C9_Remove_deletes_one Example.registry "a").2.1 Example.nodeA (by decide)⟩

/-- C10. `GetMembers` returns one member per registry entry; right after
`Add(m)` the list holds a member named `m.String()`, and right after `Remove(n)`
it holds no member named `n`. -/
theorem C10_GetMembers_consistent (r : Rendezvous) (hkeys : r.KeysAreNames) :
    (∀ enum, r.Enumerates enum → (r.GetMembers enum).length = r.members.entries.length) ∧
    (∀ m enum, (r.Add m).Enumerates enum →
        ∃ x ∈ (r.Add m).GetMembers enum, x.String = m.String) ∧
    (∀ n enum, (r.Remove n).Enumerates enum →
        ∀ x ∈ (r.Remove n).GetMembers enum, x.String ≠ n) := by
  refine ⟨?_, ?_, ?_⟩
  · intro enum henum
    rw [GetMembers_eq_map, List.length_map]
    exact henum.length_eq
  · intro m enum henum
    have hk := KeysAreNames_Add r m hkeys
    obtain ⟨v, hv⟩ := Add_lookup_self r m
    have hmem : (⟨m.String, v⟩ : Sigma fun _ : String => WeightedMember)
        ∈ (r.Add m).members.entries := AList.mem_lookup_iff.mp hv
    refine ⟨v, ?_, ?_⟩
    · rw [GetMembers_eq_map]
      exact List.mem_map.mpr ⟨_, henum.symm.subset hmem, rfl⟩
    · exact (hk _ hmem).symm
  · intro n enum henum x hx
    rw [GetMembers_eq_map] at hx
    obtain ⟨e, he, rfl⟩ := List.mem_map.mp hx
    have he2 : e ∈ (r.Remove n).members.entries := henum.subset he
    have hk := KeysAreNames_Remove r n hkeys
    rw [← hk e he2]
    intro hn
    have hnone := Remove_lookup_self r n
    have : e.1 ∈ (r.Remove n).members.keys := List.mem_keys_of_mem he2
    rw [hn] at this
    exact (AList.lookup_eq_none.mp hnone) (AList.mem_keys.mpr this)

theorem C10_GetMembers_consistent_witness :
    Example.registry.KeysAreNames ∧
    ((∀ enum, Example.registry.Enumerates enum →
        (Example.registry.GetMembers enum).length = Example.registry.members.entries.length) ∧
    (∀ m enum, (Example.registry.Add m).Enumerates enum →
        ∃ x ∈ (Example.registry.Add m).GetMembers enum, x.String = m.String) ∧
    (∀ n enum, (Example.registry.Remove n).Enumerates enum →
        ∀ x ∈ (Example.registry.Remove n).GetMembers enum, x.String ≠ n)) :=
  ⟨KeysAreNames_New _ _ _,
    C10_GetMembers_consistent Example.registry (KeysAreNames_New _ _ _)⟩


/-! ## Comparisons of float64 values -/

theorem F64.lt_irreflexive (a : F64) : F64.lt a a = false := by
  cases a <;> simp [F64.lt]

theorem F64.lt_transitive {a b c : F64} (h1 : F64.lt a b = true) (h2 : F64.lt b c = true) :
    F64.lt a c = true := by
  cases a <;> cases b <;> cases c <;> simp_all [F64.lt]
  exact lt_trans h1 h2

theorem F64.lt_asymmetric {a b : F64} (h : F64.lt a b = true) : F64.lt b a = false := by
  cases a <;> cases b <;> simp_all [F64.lt]
  exact le_of_lt h

/-- If `a < b` and not `a < c`, then not `b < c`. -/
theorem F64.not_lt_of_lt_of_not_lt {a b c : F64} (h1 : F64.lt a b = true)
    (h2 : F64.lt a c = false) : F64.lt b c = false := by
  cases a <;> cases b <;> cases c <;> simp_all [F64.lt]
  exact le_trans h2 (le_of_lt h1)

/-- Two values above a common bound, neither below the other, are `==`. -/
theorem F64.eq_of_not_lt {a b c : F64} (ha : F64.lt c a = true) (hb : F64.lt c b = true)
    (h1 : F64.lt a b = false) (h2 : F64.lt b a = false) : F64.eq a b = true := by
  cases a <;> cases b <;> cases c <;> simp_all [F64.lt, F64.eq]
  all_goals exact le_antisymm h2 h1

theorem F64.ge_of_not_lt {a b c : F64} (ha : F64.lt c a = true) (hb : F64.lt c b = true)
    (h : F64.lt a b = false) : F64.ge a b = true := by
  cases a <;> cases b <;> cases c <;> simp_all [F64.lt, F64.eq, F64.ge, F64.le]
  all_goals exact le_iff_lt_or_eq.mp h

/-! ## Scores -/

theorem F64.Nonneg.gt_neg_one {x : F64} (h : x.Nonneg) : F64.lt (F64.fin (-1)) x = true := by
  rcases h with rfl | ⟨q, hq, rfl⟩
  · rfl
  · simp only [F64.lt, decide_eq_true_eq]
    linarith

theorem FloatEnv.round_nonneg (env : FloatEnv) {q : ℚ} (hq : 0 ≤ q) : (env.round q).Nonneg := by
  have h := env.round_mono 0 q hq
  rw [env.round_zero] at h
  cases hr : env.round q with
  | nan => rw [hr] at h; simp [F64.le, F64.lt, F64.eq] at h
  | ninf => rw [hr] at h; simp [F64.le, F64.lt, F64.eq] at h
  | pinf => exact Or.inl rfl
  | fin p =>
    rw [hr] at h
    refine Or.inr ⟨p, ?_, rfl⟩
    simp only [F64.le, F64.lt, F64.eq, Bool.or_eq_true, decide_eq_true_eq] at h
    rcases h with h | h
    · exact le_of_lt h
    · exact le_of_eq h

theorem FiftyThreeOnes_eq : FiftyThreeOnes = 2 ^ 53 - 1 := by decide

theorem FiftyThreeZeros_eq : FiftyThreeZeros = 2 ^ 53 := by
  have h : (1 <<< 53 : Nat) = 2 ^ 53 := by decide
  unfold FiftyThreeZeros
  rw [h]
  norm_num

/-- `IntToFloat` is finite, at least 0 and below 1. -/
theorem IntToFloat_range (v : Nat) : ∃ x : ℚ, IntToFloat v = F64.fin x ∧ 0 ≤ x ∧ x < 1 := by
  refine ⟨_, rfl, ?_, ?_⟩
  · rw [FiftyThreeZeros_eq]
    positivity
  · rw [FiftyThreeZeros_eq, div_lt_one (by positivity)]
    have h : (v % 2 ^ 64) &&& FiftyThreeOnes < 2 ^ 53 :=
      Nat.and_lt_two_pow _ (by rw [FiftyThreeOnes_eq]; decide)
    exact_mod_cast h

/-- The factor `1.0 / -math.Log(IntToFloat(hash))` is never negative and never NaN. -/
theorem score_factor_nonneg (env : FloatEnv) (v : Nat) :
    (env.div (F64.fin 1) (F64.neg (env.Log (IntToFloat v)))).Nonneg := by
  obtain ⟨x, hx, h0, h1⟩ := IntToFloat_range v
  rw [hx]
  rcases eq_or_lt_of_le h0 with h | h
  · subst h
    simp only [FloatEnv.Log, lt_self_iff_false, if_false, if_true, F64.neg, FloatEnv.div]
    exact Or.inr ⟨0, le_refl _, rfl⟩
  · have hl := env.logFin_neg x h h1
    have hx0 : ¬ x < 0 := not_lt.mpr h0
    have hx1 : x ≠ 0 := ne_of_gt h
    simp only [FloatEnv.Log, hx0, hx1, if_false, F64.neg, FloatEnv.div]
    have hne : -env.logFin x ≠ 0 := by linarith [hl]
    rw [if_neg hne]
    apply env.round_nonneg
    apply div_nonneg <;> linarith

/-- A member of positive finite weight has a score that is never negative and never NaN. -/
theorem ComputeWeightedScore_nonneg (env : FloatEnv) (r : Rendezvous) (m : WeightedMember)
    (key : Bytes) {w : ℚ} (hw : 0 < w) (hm : m.Weight = F64.fin w) :
    (r.ComputeWeightedScore env m key).Nonneg := by
  unfold Rendezvous.ComputeWeightedScore
  simp only [hm]
  rcases score_factor_nonneg env (r.hasher (bytesOf m.String ++ key) % 2 ^ 64) with h | ⟨q, hq, h⟩
  · rw [h]
    simp only [FloatEnv.mul, ne_of_gt hw, hw, if_false, if_true]
    exact Or.inl rfl
  · rw [h]
    simp only [FloatEnv.mul]
    exact env.round_nonneg (mul_nonneg (le_of_lt hw) hq)

theorem ComputeWeightedScore_hasher (env : FloatEnv) (r r2 : Rendezvous)
    (h : r2.hasher = r.hasher) (m : WeightedMember) (key : Bytes) :
    r2.ComputeWeightedScore env m key = r.ComputeWeightedScore env m key := by
  unfold Rendezvous.ComputeWeightedScore
  rw [h]


/-! ## LocateKey -/

/-- The loop of `LocateKey` started in state `(h0, m0)`: either no score
exceeded `h0` and the state is unchanged, or the state holds an entry whose
score exceeds `h0` and that no score of the list exceeds. -/
theorem locate_fold (env : FloatEnv) (r : Rendezvous) (key : Bytes)
    (l : List (Sigma fun _ : String => WeightedMember)) :
    ∀ (h0 : F64) (m0 : Option WeightedMember),
      (l.foldl (r.locateStep env key) (h0, m0) = (h0, m0) ∧
        ∀ e ∈ l, F64.lt h0 (r.ComputeWeightedScore env e.2 key) = false) ∨
      (∃ e ∈ l, l.foldl (r.locateStep env key) (h0, m0)
          = (r.ComputeWeightedScore env e.2 key, some e.2) ∧
        F64.lt h0 (r.ComputeWeightedScore env e.2 key) = true ∧
        ∀ e' ∈ l, F64.lt (r.ComputeWeightedScore env e.2 key)
          (r.ComputeWeightedScore env e'.2 key) = false) := by
  induction l with
  | nil =>
    intro h0 m0
    exact Or.inl ⟨rfl, by simp⟩
  | cons x xs ih =>
    intro h0 m0
    rw [List.foldl_cons]
    by_cases hx : F64.lt h0 (r.ComputeWeightedScore env x.2 key) = true
    · have hstep : r.locateStep env key (h0, m0) x
          = (r.ComputeWeightedScore env x.2 key, some x.2) := by
        simp [Rendezvous.locateStep, F64.gt, hx]
      rw [hstep]
      rcases ih (r.ComputeWeightedScore env x.2 key) (some x.2) with ⟨heq, hall⟩ | ⟨e, he, heq, hgt, hall⟩
      · refine Or.inr ⟨x, List.mem_cons_self _ _, heq, hx, ?_⟩
        intro e' he'
        rcases List.mem_cons.mp he' with rfl | he'
        · exact F64.lt_irreflexive _
        · exact hall e' he'
      · refine Or.inr ⟨e, List.mem_cons_of_mem _ he, heq, F64.lt_transitive hx hgt, ?_⟩
        intro e' he'
        rcases List.mem_cons.mp he' with rfl | he'
        · exact F64.lt_asymmetric hgt
        · exact hall e' he'
    · have hx' : F64.lt h0 (r.ComputeWeightedScore env x.2 key) = false := by
        simpa using hx
      have hstep : r.locateStep env key (h0, m0) x = (h0, m0) := by
        simp [Rendezvous.locateStep, F64.gt, hx']
      rw [hstep]
      rcases ih h0 m0 with ⟨heq, hall⟩ | ⟨e, he, heq, hgt, hall⟩
      · refine Or.inl ⟨heq, ?_⟩
        intro e' he'
        rcases List.mem_cons.mp he' with rfl | he'
        · exact hx'
        · exact hall e' he'
      · refine Or.inr ⟨e, List.mem_cons_of_mem _ he, heq, hgt, ?_⟩
        intro e' he'
        rcases List.mem_cons.mp he' with rfl | he'
        · exact F64.not_lt_of_lt_of_not_lt hgt hx'
        · exact hall e' he'

/-- What `LocateKey` returns: nil when no score exceeds `-1.0`, otherwise an
enumerated member whose score exceeds `-1.0` and is exceeded by none. -/
theorem LocateKey_spec (env : FloatEnv) (r : Rendezvous)
    (enum : List (Sigma fun _ : String => WeightedMember)) (key : Bytes) :
    (r.LocateKey env enum key = none ∧
        ∀ e ∈ enum, F64.lt (F64.fin (-1)) (r.ComputeWeightedScore env e.2 key) = false) ∨
      (∃ e ∈ enum, r.LocateKey env enum key = some e.2 ∧
        F64.lt (F64.fin (-1)) (r.ComputeWeightedScore env e.2 key) = true ∧
        ∀ e' ∈ enum, F64.lt (r.ComputeWeightedScore env e.2 key)
          (r.ComputeWeightedScore env e'.2 key) = false) := by
  unfold Rendezvous.LocateKey
  rcases locate_fold env r key enum (F64.fin (-1)) none with ⟨heq, hall⟩ | ⟨e, he, heq, hgt, hall⟩
  · exact Or.inl ⟨by rw [heq], hall⟩
  · exact Or.inr ⟨e, he, by rw [heq], hgt, hall⟩

theorem mem_Add_entries (r : Rendezvous) (m : WeightedMember)
    (e : Sigma fun _ : String => WeightedMember) (he : e ∈ (r.Add m).members.entries) :
    e = ⟨m.String, m⟩ ∨ e ∈ r.members.entries := by
  unfold Rendezvous.Add at he
  split at he
  · exact Or.inr he
  · unfold Rendezvous.add at he
    rw [AList.insert_entries] at he
    rcases List.mem_cons.mp he with h | h
    · exact Or.inl h
    · exact Or.inr ((List.kerase_sublist _ _).subset h)

theorem mem_entries_Add (r : Rendezvous) (m : WeightedMember)
    (e : Sigma fun _ : String => WeightedMember) (he : e ∈ r.members.entries) :
    e ∈ (r.Add m).members.entries := by
  unfold Rendezvous.Add
  split
  · exact he
  · rename_i h
    have hnone : r.members.lookup m.String = none := by simpa using h
    rw [add_entries_of_not_mem r m hnone]
    exact List.mem_cons_of_mem _ he

theorem mem_Remove_entries (r : Rendezvous) (n : String)
    (e : Sigma fun _ : String => WeightedMember) (he : e ∈ (r.Remove n).members.entries) :
    e ∈ r.members.entries := by
  unfold Rendezvous.Remove at he
  split at he
  · exact he
  · exact (List.kerase_sublist _ _).subset he

theorem mem_entries_Remove (r : Rendezvous) (n : String)
    (e : Sigma fun _ : String => WeightedMember) (he : e ∈ r.members.entries) (hn : e.1 ≠ n) :
    e ∈ (r.Remove n).members.entries := by
  unfold Rendezvous.Remove
  split
  · exact he
  · show e ∈ (r.members.erase n).entries
    have h1 : (r.members.erase n).lookup e.1 = r.members.lookup e.1 := AList.lookup_erase_ne hn
    have h2 : r.members.lookup e.1 = some e.2 := AList.mem_lookup_iff.mpr he
    rw [h2] at h1
    exact AList.mem_lookup_iff.mp h1

/-- C2. On a non-empty registry whose members all have a positive (finite)
weight, `LocateKey` returns, for every key and every enumeration order, a member
that is stored in the registry and whose score is `>=` the score of every
member of the registry. -/
theorem C2_LocateKey_returns_maximum (env : FloatEnv) (r : Rendezvous)
    (enum : List (Sigma fun _ : String => WeightedMember)) (key : Bytes)
    (henum : r.Enumerates enum) (hne : r.members.entries ≠ [])
    (hpos : ∀ e ∈ r.members.entries, ∃ w : ℚ, 0 < w ∧ e.2.Weight = F64.fin w) :
    ∃ e ∈ r.members.entries, r.LocateKey env enum key = some e.2 ∧
      ∀ e' ∈ r.members.entries,
        F64.ge (r.ComputeWeightedScore env e.2 key) (r.ComputeWeightedScore env e'.2 key)
          = true := by
  have hgt : ∀ e ∈ r.members.entries,
      F64.lt (F64.fin (-1)) (r.ComputeWeightedScore env e.2 key) = true := by
    intro e he
    obtain ⟨w, hw, hm⟩ := hpos e he
    exact (ComputeWeightedScore_nonneg env r e.2 key hw hm).gt_neg_one
  rcases LocateKey_spec env r enum key with ⟨_, hall⟩ | ⟨e, he, heq, _, hmax⟩
  · obtain ⟨x, hx⟩ := List.exists_mem_of_ne_nil _ hne
    have := hall x (henum.symm.subset hx)
    rw [hgt x hx] at this
    exact absurd this (by simp)
  · refine ⟨e, henum.subset he, heq, ?_⟩
    intro e' he'
    exact F64.ge_of_not_lt (hgt e (henum.subset he)) (hgt e' he')
      (hmax e' (henum.symm.subset he'))

/-- C3. Minimal disruption on `Add`: for a key at which the scores of the
members of the registry are pairwise distinct, `LocateKey` after `Add(m)`
returns `m` or exactly what it returned before the `Add` (nil included),
whatever the two enumeration orders are.  This holds for every `m`, in
particular for one whose name is not in the registry. -/
theorem C3_Add_minimal_disruption (env : FloatEnv) (r : Rendezvous) (m : WeightedMember)
    (enum enumAfter : List (Sigma fun _ : String => WeightedMember)) (key : Bytes)
    (henum : r.Enumerates enum) (hafter : (r.Add m).Enumerates enumAfter)
    (hdist : ∀ e1 ∈ r.members.entries, ∀ e2 ∈ r.members.entries, e1 ≠ e2 →
      F64.eq (r.ComputeWeightedScore env e1.2 key) (r.ComputeWeightedScore env e2.2 key)
        = false) :
    (r.Add m).LocateKey env enumAfter key = some m ∨
      (r.Add m).LocateKey env enumAfter key = r.LocateKey env enum key := by
  have hs : ∀ x, (r.Add m).ComputeWeightedScore env x key = r.ComputeWeightedScore env x key :=
    fun x => ComputeWeightedScore_hasher env r (r.Add m) (Add_hasher r m) x key
  have hsub : ∀ x ∈ enum, x ∈ enumAfter := fun x hx =>
    hafter.symm.subset (mem_entries_Add r m x (henum.subset hx))
  rcases LocateKey_spec env (r.Add m) enumAfter key with
    ⟨hnone, hall⟩ | ⟨e, he, heq, hgt, hmax⟩
  · right
    rcases LocateKey_spec env r enum key with ⟨hnone0, _⟩ | ⟨e0, he0, _, hgt0, _⟩
    · rw [hnone, hnone0]
    · have := hall e0 (hsub e0 he0)
      rw [hs, hgt0] at this
      exact absurd this (by simp)
  · rcases mem_Add_entries r m e (hafter.subset he) with rfl | hold
    · exact Or.inl heq
    · right
      rw [hs] at hgt
      rcases LocateKey_spec env r enum key with ⟨_, hall0⟩ | ⟨e0, he0, heq0, hgt0, hmax0⟩
      · have := hall0 e (henum.symm.subset hold)
        rw [hgt] at this
        exact absurd this (by simp)
      · have h1 := hmax0 e (henum.symm.subset hold)
        have h2 := hmax e0 (hsub e0 he0)
        rw [hs, hs] at h2
        have hEq := F64.eq_of_not_lt hgt0 hgt h1 h2
        by_cases hee : e0 = e
        · rw [heq, heq0, hee]
        · have := hdist e0 (henum.subset he0) e hold hee
          rw [hEq] at this
          exact absurd this (by simp)

/-- C4. Minimal disruption on `Remove`: for a key at which the scores of the
members of the registry are pairwise distinct, if `LocateKey` returns a member
whose name is not `n`, then after `Remove(n)` it returns that same member,
whatever the two enumeration orders are. -/
theorem C4_Remove_minimal_disruption (env : FloatEnv) (r : Rendezvous) (n : String)
    (enum enumAfter : List (Sigma fun _ : String => WeightedMember)) (key : Bytes)
    (winner : WeightedMember) (hkeys : r.KeysAreNames)
    (henum : r.Enumerates enum) (hafter : (r.Remove n).Enumerates enumAfter)
    (hdist : ∀ e1 ∈ r.members.entries, ∀ e2 ∈ r.members.entries, e1 ≠ e2 →
      F64.eq (r.ComputeWeightedScore env e1.2 key) (r.ComputeWeightedScore env e2.2 key)
        = false)
    (hwin : r.LocateKey env enum key = some winner) (hname : winner.String ≠ n) :
    (r.Remove n).LocateKey env enumAfter key = some winner := by
  have hs : ∀ x, (r.Remove n).ComputeWeightedScore env x key
      = r.ComputeWeightedScore env x key :=
    fun x => ComputeWeightedScore_hasher env r (r.Remove n) (Remove_hasher r n) x key
  rcases LocateKey_spec env r enum key with ⟨hnone, _⟩ | ⟨e, he, heq, hgt, hmax⟩
  · rw [hnone] at hwin
    exact absurd hwin (by simp)
  · rw [heq] at hwin
    have hw : e.2 = winner := Option.some.inj hwin
    have hkey : e.1 ≠ n := by
      rw [hkeys e (henum.subset he), hw]
      exact hname
    have heAfter : e ∈ enumAfter :=
      hafter.symm.subset (mem_entries_Remove r n e (henum.subset he) hkey)
    rcases LocateKey_spec env (r.Remove n) enumAfter key with
      ⟨_, hall⟩ | ⟨e2, he2, heq2, hgt2, hmax2⟩
    · have := hall e heAfter
      rw [hs, hgt] at this
      exact absurd this (by simp)
    · have he2old : e2 ∈ r.members.entries := mem_Remove_entries r n e2 (hafter.subset he2)
      rw [hs] at hgt2
      have h1 := hmax e2 (henum.symm.subset he2old)
      have h2 := hmax2 e heAfter
      rw [hs, hs] at h2
      have hEq := F64.eq_of_not_lt hgt hgt2 h1 h2
      by_cases hee : e = e2
      · rw [heq2, ← hee, hw]
      · have := hdist e (henum.subset he) e2 he2old hee
        rw [hEq] at this
        exact absurd this (by simp)


theorem Example.registry_entries :
    Example.registry.members.entries = [⟨"b", Example.nodeB⟩, ⟨"a", Example.nodeA⟩] := by
  decide

theorem Example.hash_nodeA :
    Example.registry.hasher (bytesOf Example.nodeA.String ++ Example.key) % 2 ^ 64 = 2 ^ 51 := by
  decide

theorem Example.hash_nodeB :
    Example.registry.hasher (bytesOf Example.nodeB.String ++ Example.key) % 2 ^ 64 = 2 ^ 52 := by
  decide

theorem Example.unit_nodeA : IntToFloat (2 ^ 51) = F64.fin (1 / 4) := by
  have h : ((2 ^ 51 % 2 ^ 64) &&& FiftyThreeOnes : Nat) = 2 ^ 51 := by decide
  unfold IntToFloat
  rw [h, FiftyThreeZeros_eq]
  norm_num

theorem Example.unit_nodeB : IntToFloat (2 ^ 52) = F64.fin (1 / 2) := by
  have h : ((2 ^ 52 % 2 ^ 64) &&& FiftyThreeOnes : Nat) = 2 ^ 52 := by decide
  unfold IntToFloat
  rw [h, FiftyThreeZeros_eq]
  norm_num

theorem Example.score_nodeA :
    Example.registry.ComputeWeightedScore FloatEnv.exact Example.nodeA Example.key
      = F64.fin (125 / 168) := by
  unfold Rendezvous.ComputeWeightedScore
  simp only [Example.hash_nodeA, Example.unit_nodeA]
  simp only [FloatEnv.Log, FloatEnv.exact, F64.neg, FloatEnv.div, FloatEnv.mul, Example.nodeA]
  norm_num

theorem Example.score_nodeB :
    Example.registry.ComputeWeightedScore FloatEnv.exact Example.nodeB Example.key
      = F64.fin (81 / 56) := by
  unfold Rendezvous.ComputeWeightedScore
  simp only [Example.hash_nodeB, Example.unit_nodeB]
  simp only [FloatEnv.Log, FloatEnv.exact, F64.neg, FloatEnv.div, FloatEnv.mul, Example.nodeB]
  norm_num

theorem Example.scores_distinct :
    ∀ e1 ∈ Example.registry.members.entries, ∀ e2 ∈ Example.registry.members.entries,
      e1 ≠ e2 →
      F64.eq (Example.registry.ComputeWeightedScore FloatEnv.exact e1.2 Example.key)
        (Example.registry.ComputeWeightedScore FloatEnv.exact e2.2 Example.key) = false := by
  intro e1 h1 e2 h2 hne
  rw [Example.registry_entries] at h1 h2
  simp only [List.mem_cons, List.mem_singleton, List.not_mem_nil, or_false] at h1 h2
  rcases h1 with rfl | rfl <;> rcases h2 with rfl | rfl
  · exact absurd rfl hne
  · simp only [Example.score_nodeA, Example.score_nodeB, F64.eq]
    norm_num
  · simp only [Example.score_nodeA, Example.score_nodeB, F64.eq]
    norm_num
  · exact absurd rfl hne

theorem Example.weights_positive :
    ∀ e ∈ Example.registry.members.entries, ∃ w : ℚ, 0 < w ∧ e.2.Weight = F64.fin w := by
  intro e he
  rw [Example.registry_entries] at he
  simp only [List.mem_cons, List.mem_singleton, List.not_mem_nil, or_false] at he
  rcases he with rfl | rfl <;> exact ⟨1, one_pos, rfl⟩

theorem Example.locate :
    Example.registry.LocateKey FloatEnv.exact Example.registry.members.entries Example.key
      = some Example.nodeB := by
  unfold Rendezvous.LocateKey
  rw [Example.registry_entries]
  simp only [List.foldl, Rendezvous.locateStep, Example.score_nodeA, Example.score_nodeB,
    F64.gt, F64.lt]
  norm_num

theorem C2_LocateKey_returns_maximum_witness :
    ∃ e ∈ Example.registry.members.entries,
      Example.registry.LocateKey FloatEnv.exact Example.registry.members.entries Example.key
        = some e.2 ∧
      ∀ e' ∈ Example.registry.members.entries,
        F64.ge (Example.registry.ComputeWeightedScore FloatEnv.exact e.2 Example.key)
          (Example.registry.ComputeWeightedScore FloatEnv.exact e'.2 Example.key) = true :=
  C2_LocateKey_returns_maximum FloatEnv.exact Example.registry
    Example.registry.members.entries Example.key (List.Perm.refl _) (by decide)
    Example.weights_positive

theorem C3_Add_minimal_disruption_witness :
    (Example.registry.Add Example.nodeC).LocateKey FloatEnv.exact
        (Example.registry.Add Example.nodeC).members.entries Example.key = some Example.nodeC ∨
      (Example.registry.Add Example.nodeC).LocateKey FloatEnv.exact
        (Example.registry.Add Example.nodeC).members.entries Example.key
        = Example.registry.LocateKey FloatEnv.exact Example.registry.members.entries
            Example.key :=
  C3_Add_minimal_disruption FloatEnv.exact Example.registry Example.nodeC
    Example.registry.members.entries (Example.registry.Add Example.nodeC).members.entries
    Example.key (List.Perm.refl _) (List.Perm.refl _) Example.scores_distinct

theorem C4_Remove_minimal_disruption_witness :
    (Example.registry.Remove "a").LocateKey FloatEnv.exact
        (Example.registry.Remove "a").members.entries Example.key = some Example.nodeB :=
  C4_Remove_minimal_disruption FloatEnv.exact Example.registry "a"
    Example.registry.members.entries (Example.registry.Remove "a").members.entries
    Example.key Example.nodeB (KeysAreNames_New _ _ _) (List.Perm.refl _) (List.Perm.refl _)
    Example.scores_distinct Example.locate (by decide)


/-! ## GetClosestN -/

/-- The copy loop of `GetClosestN` over the indices `a, a+1, ..., a+n-1`
completes when they are in range and every name in `scores` is a key of the
map; it yields, in order, the members stored under those names. -/
theorem closestLoop_range (r : Rendezvous) (scores : byScore)
    (hkeys : ∀ s ∈ scores, ∃ m, r.members.lookup s.1 = some m) :
    ∀ (n a : Nat), a + n ≤ scores.length →
      ∃ ms, r.closestLoop scores (List.range' a n) = some ms ∧
        List.Forall₂ (fun s m => r.members.lookup s.1 = some m)
          ((scores.drop a).take n) ms := by
  intro n
  induction n with
  | zero =>
    intro a _
    exact ⟨[], rfl, by simp⟩
  | succ n ih =>
    intro a ha
    have hlt : a < scores.length := by omega
    obtain ⟨ms, hms, hf⟩ := ih (a + 1) (by omega)
    obtain ⟨m, hm⟩ := hkeys scores[a] (List.getElem_mem _)
    refine ⟨m :: ms, ?_, ?_⟩
    · rw [List.range'_succ]
      simp only [Rendezvous.closestLoop, List.getElem?_eq_getElem hlt, hm, hms]
    · rw [List.drop_eq_getElem_cons hlt, List.take_succ_cons]
      exact List.Forall₂.cons hm hf

theorem forall₂_mem_right {α β : Type} {R : α → β → Prop} {l : List α} {ms : List β}
    (h : List.Forall₂ R l ms) : ∀ m ∈ ms, ∃ s ∈ l, R s m := by
  induction h with
  | nil => intro m hm; simp at hm
  | cons hR _ ih =>
    intro m hm
    rcases List.mem_cons.mp hm with rfl | hm
    · exact ⟨_, List.mem_cons_self _ _, hR⟩
    · obtain ⟨s, hs, hR'⟩ := ih m hm
      exact ⟨s, List.mem_cons_of_mem _ hs, hR'⟩

/-- The slice `scores` that `GetClosestN` hands to the copy loop. -/
theorem selected_mem (env : FloatEnv) (qs : quickselect) (r : Rendezvous)
    (enum : List (Sigma fun _ : String => WeightedMember)) (key : Bytes) (count : Int)
    (henum : r.Enumerates enum) :
    ∀ s ∈ qs.QuickSelect (enum.map fun e => (e.1, r.ComputeWeightedScore env e.2 key)) count,
      ∃ e ∈ r.members.entries, s = (e.1, r.ComputeWeightedScore env e.2 key) ∧
        r.members.lookup s.1 = some e.2 := by
  intro s hs
  have h1 := (qs.perm _ count).subset hs
  obtain ⟨e, he, rfl⟩ := List.mem_map.mp h1
  have he' : e ∈ r.members.entries := henum.subset he
  refine ⟨e, he', rfl, ?_⟩
  exact AList.mem_lookup_iff.mpr he'

/-- For `0 <= count <= N`, `GetClosestN` returns without error the members
stored under the first `count` names left by `QuickSelect`, in that order. -/
theorem GetClosestN_returns (env : FloatEnv) (qs : quickselect) (r : Rendezvous)
    (enum : List (Sigma fun _ : String => WeightedMember)) (key : Bytes) (count : Int)
    (henum : r.Enumerates enum) (h0 : 0 ≤ count)
    (hN : count ≤ (r.members.entries.length : Int)) :
    ∃ ms, r.GetClosestN env qs enum key count = (r, Outcome.returned (ms, none)) ∧
      List.Forall₂ (fun s m => r.members.lookup s.1 = some m)
        ((qs.QuickSelect (enum.map fun e => (e.1, r.ComputeWeightedScore env e.2 key))
          count).take count.toNat) ms := by
  have hkeys : ∀ s ∈ qs.QuickSelect
      (enum.map fun e => (e.1, r.ComputeWeightedScore env e.2 key)) count,
      ∃ m, r.members.lookup s.1 = some m := by
    intro s hs
    obtain ⟨e, _, _, h⟩ := selected_mem env qs r enum key count henum s hs
    exact ⟨e.2, h⟩
  have hlen : (qs.QuickSelect
      (enum.map fun e => (e.1, r.ComputeWeightedScore env e.2 key)) count).length
      = r.members.entries.length := by
    rw [(qs.perm _ count).length_eq, List.length_map, henum.length_eq]
  obtain ⟨ms, hms, hf⟩ := closestLoop_range r _ hkeys count.toNat 0 (by omega)
  refine ⟨ms, ?_, ?_⟩
  · unfold Rendezvous.GetClosestN
    rw [if_neg (by omega)]
    simp only
    rw [if_neg (by omega), List.range_eq_range', hms]
  · simpa using hf

/-- C6. For `0 <= count <= N`, `GetClosestN` returns no error and a list of
exactly `count` members with pairwise distinct names, each of which is the
member the registry stores under its name; for `count = 0` the list is empty. -/
theorem C6_GetClosestN_shape (env : FloatEnv) (qs : quickselect) (r : Rendezvous)
    (enum : List (Sigma fun _ : String => WeightedMember)) (key : Bytes) (count : Int)
    (hkeys : r.KeysAreNames) (henum : r.Enumerates enum) (h0 : 0 ≤ count)
    (hN : count ≤ (r.members.entries.length : Int)) :
    ∃ ms, r.GetClosestN env qs enum key count = (r, Outcome.returned (ms, none)) ∧
      (ms.length : Int) = count ∧
      (ms.map fun m => m.String).Nodup ∧
      (∀ m ∈ ms, r.members.lookup m.String = some m) ∧
      (count = 0 → ms = []) := by
  obtain ⟨ms, hres, hf⟩ := GetClosestN_returns env qs r enum key count henum h0 hN
  have hperm := qs.perm (enum.map fun e => (e.1, r.ComputeWeightedScore env e.2 key)) count
  have hlen : (qs.QuickSelect
      (enum.map fun e => (e.1, r.ComputeWeightedScore env e.2 key)) count).length
      = r.members.entries.length := by
    rw [hperm.length_eq, List.length_map, henum.length_eq]
  have hname : ∀ (s : String × F64) (m : WeightedMember),
      r.members.lookup s.1 = some m → s.1 = m.String := by
    intro s m h
    exact hkeys ⟨s.1, m⟩ (AList.mem_lookup_iff.mp h)
  have hmslen : ms.length = count.toNat := by
    rw [← hf.length_eq, List.length_take, hlen]
    omega
  have hnames : ((qs.QuickSelect
      (enum.map fun e => (e.1, r.ComputeWeightedScore env e.2 key)) count).take
        count.toNat).map Prod.fst = ms.map fun m => m.String := by
    have h2 : List.Forall₂ (fun (s : String × F64) (m : WeightedMember) => s.1 = m.String)
        ((qs.QuickSelect (enum.map fun e => (e.1, r.ComputeWeightedScore env e.2 key))
          count).take count.toNat) ms :=
      hf.imp fun s m h => hname s m h
    rw [← List.forall₂_eq_eq_eq, List.forall₂_map_left_iff, List.forall₂_map_right_iff]
    exact h2
  refine ⟨ms, hres, by omega, ?_, ?_, ?_⟩
  · rw [← hnames]
    have hnodup : ((qs.QuickSelect
        (enum.map fun e => (e.1, r.ComputeWeightedScore env e.2 key)) count).map
          Prod.fst).Nodup := by
      have hp : ((qs.QuickSelect
          (enum.map fun e => (e.1, r.ComputeWeightedScore env e.2 key)) count).map
            Prod.fst).Perm r.members.keys := by
        refine (hperm.map _).trans ?_
        rw [List.map_map]
        exact henum.map _
      exact hp.nodup_iff.mpr r.members.keys_nodup
    exact hnodup.sublist ((List.take_sublist _ _).map _)
  · intro m hm
    obtain ⟨s, _, hs⟩ := forall₂_mem_right hf m hm
    rw [← hname s m hs]
    exact hs
  · intro hc
    apply List.eq_nil_of_length_eq_zero
    rw [hmslen, hc]
    rfl

theorem C6_GetClosestN_shape_witness :
    ∃ ms, Example.registry.GetClosestN FloatEnv.exact quickselect.bySorting
        Example.registry.members.entries Example.key 1
        = (Example.registry, Outcome.returned (ms, none)) ∧
      (ms.length : Int) = 1 ∧
      (ms.map fun m => m.String).Nodup ∧
      (∀ m ∈ ms, Example.registry.members.lookup m.String = some m) ∧
      ((1 : Int) = 0 → ms = []) :=
  C6_GetClosestN_shape FloatEnv.exact quickselect.bySorting Example.registry
    Example.registry.members.entries Example.key 1 (KeysAreNames_New _ _ _)
    (List.Perm.refl _) (by decide) (by decide)


theorem forall₂_mem_left {α β : Type} {R : α → β → Prop} {l : List α} {ms : List β}
    (h : List.Forall₂ R l ms) : ∀ s ∈ l, ∃ m ∈ ms, R s m := by
  induction h with
  | nil => intro s hs; simp at hs
  | cons hR _ ih =>
    intro s hs
    rcases List.mem_cons.mp hs with rfl | hs
    · exact ⟨_, List.mem_cons_self _ _, hR⟩
    · obtain ⟨m, hm, hR'⟩ := ih s hs
      exact ⟨m, List.mem_cons_of_mem _ hm, hR'⟩

/-- What `GetClosestN` selects.  For `0 <= count <= N` and scores free of NaN,
the returned members are `count` members of the registry, and no member left
out has a score below the score of a returned member: the call returns `count`
members of LOWEST score. -/
theorem GetClosestN_lowest (env : FloatEnv) (qs : quickselect) (r : Rendezvous)
    (enum : List (Sigma fun _ : String => WeightedMember)) (key : Bytes) (count : Int)
    (henum : r.Enumerates enum) (h0 : 0 ≤ count)
    (hN : count ≤ (r.members.entries.length : Int))
    (hnan : ∀ e ∈ r.members.entries, r.ComputeWeightedScore env e.2 key ≠ F64.nan) :
    ∃ ms, r.GetClosestN env qs enum key count = (r, Outcome.returned (ms, none)) ∧
      ms.length = count.toNat ∧
      (∀ m ∈ ms, ∃ e ∈ r.members.entries, m = e.2) ∧
      ∀ m ∈ ms, ∀ e ∈ r.members.entries, e.2 ∉ ms →
        F64.lt (r.ComputeWeightedScore env e.2 key) (r.ComputeWeightedScore env m key)
          = false := by
  obtain ⟨ms, hres, hf⟩ := GetClosestN_returns env qs r enum key count henum h0 hN
  have hperm := qs.perm (enum.map fun e => (e.1, r.ComputeWeightedScore env e.2 key)) count
  have hsel := selected_mem env qs r enum key count henum
  have hdata : ∀ x ∈ (enum.map fun e => (e.1, r.ComputeWeightedScore env e.2 key)),
      x.2 ≠ F64.nan := by
    intro x hx
    obtain ⟨e, he, rfl⟩ := List.mem_map.mp hx
    exact hnan e (henum.subset he)
  have hsmall := qs.smallest_first _ count hdata
  generalize hS : qs.QuickSelect
    (enum.map fun e => (e.1, r.ComputeWeightedScore env e.2 key)) count = S at *
  have hlen : S.length = r.members.entries.length := by
    rw [hperm.length_eq, List.length_map, henum.length_eq]
  refine ⟨ms, hres, ?_, ?_, ?_⟩
  · rw [← hf.length_eq, List.length_take, hlen]
    omega
  · intro m hm
    obtain ⟨s, hs, hlook⟩ := forall₂_mem_right hf m hm
    obtain ⟨e, he, _, hlook'⟩ := hsel s (List.mem_of_mem_take hs)
    rw [hlook] at hlook'
    exact ⟨e, he, Option.some.inj hlook'⟩
  · intro m hm e he hout
    -- the returned member `m` sits at an index `i < count`
    obtain ⟨s, hs, hlook⟩ := forall₂_mem_right hf m hm
    obtain ⟨i, hi, hsi⟩ := List.getElem_of_mem hs
    have hi' : i < count.toNat ∧ i < S.length := by
      rw [List.length_take] at hi
      omega
    have hSi : S[i] = s := by
      rw [← hsi]
      exact (List.getElem_take _).symm
    obtain ⟨e0, _, hs0, hlook0⟩ := hsel s (List.mem_of_mem_take hs)
    have hm0 : m = e0.2 := by
      rw [hlook] at hlook0
      exact Option.some.inj hlook0
    -- the member left out sits at an index `j >= count`
    have hemem : (e.1, r.ComputeWeightedScore env e.2 key) ∈ S := by
      apply hperm.symm.subset
      exact List.mem_map.mpr ⟨e, henum.symm.subset he, rfl⟩
    obtain ⟨j, hj, hSj⟩ := List.getElem_of_mem hemem
    have hjk : count.toNat ≤ j := by
      by_contra hlt
      have hjt : j < (S.take count.toNat).length := by
        rw [List.length_take]
        omega
      have hmemt : S[j] ∈ S.take count.toNat := by
        have : (S.take count.toNat)[j] = S[j] := List.getElem_take _
        rw [← this]
        exact List.getElem_mem _
      obtain ⟨m', hm', hlook'⟩ := forall₂_mem_left hf _ hmemt
      rw [hSj] at hlook'
      have : r.members.lookup e.1 = some e.2 := AList.mem_lookup_iff.mpr he
      rw [this] at hlook'
      exact hout (by rw [Option.some.inj hlook']; exact hm')
    have hless := hsmall i j (by omega) (by omega)
      (by rw [List.length_map, henum.length_eq, ← hlen]; exact hj)
    unfold byScore.Less at hless
    rw [List.getElem?_eq_getElem hj, List.getElem?_eq_getElem hi'.2, hSj, hSi, hs0] at hless
    rw [hm0]
    exact hless

/-- C1 (evaluation at the failing input). Registry `{a, b}`, both of weight 1,
key `k`, `count = 1`: member `b` has the higher score (and is what `LocateKey`
returns), yet for every selection meeting the contract of `QuickSelect` and
every enumeration order `GetClosestN` returns `[a]`, the member of lowest
score. -/
theorem C1_GetClosestN_returns_lowest_score :
    (∀ (qs : quickselect) (enum : List (Sigma fun _ : String => WeightedMember)),
        Example.registry.Enumerates enum →
        Example.registry.GetClosestN FloatEnv.exact qs enum Example.key 1
          = (Example.registry, Outcome.returned ([Example.nodeA], none))) ∧
      F64.lt (Example.registry.ComputeWeightedScore FloatEnv.exact Example.nodeA Example.key)
        (Example.registry.ComputeWeightedScore FloatEnv.exact Example.nodeB Example.key)
          = true ∧
      Example.registry.members.lookup Example.nodeB.String = some Example.nodeB ∧
      Example.registry.LocateKey FloatEnv.exact Example.registry.members.entries Example.key
        = some Example.nodeB := by
  have hlt : F64.lt
      (Example.registry.ComputeWeightedScore FloatEnv.exact Example.nodeA Example.key)
      (Example.registry.ComputeWeightedScore FloatEnv.exact Example.nodeB Example.key)
        = true := by
    simp only [Example.score_nodeA, Example.score_nodeB, F64.lt]
    norm_num
  refine ⟨?_, hlt, by decide, Example.locate⟩
  intro qs enum henum
  have hnan : ∀ e ∈ Example.registry.members.entries,
      Example.registry.ComputeWeightedScore FloatEnv.exact e.2 Example.key ≠ F64.nan := by
    intro e he
    rw [Example.registry_entries] at he
    simp only [List.mem_cons, List.mem_singleton, List.not_mem_nil, or_false] at he
    rcases he with rfl | rfl
    · rw [Example.score_nodeB]
      exact fun h => F64.noConfusion h
    · rw [Example.score_nodeA]
      exact fun h => F64.noConfusion h
  obtain ⟨ms, hres, hlen, hmem, hlow⟩ :=
    GetClosestN_lowest FloatEnv.exact qs Example.registry enum Example.key 1 henum
      (by decide) (by decide) hnan
  rw [hres]
  have hone : ms.length = 1 := hlen
  obtain ⟨x, rfl⟩ := List.length_eq_one.mp hone
  obtain ⟨e, he, hx⟩ := hmem x (List.mem_singleton_self x)
  rw [Example.registry_entries] at he
  simp only [List.mem_cons, List.mem_singleton, List.not_mem_nil, or_false] at he
  rcases he with rfl | rfl
  · exfalso
    have hA : (⟨"a", Example.nodeA⟩ : Sigma fun _ : String => WeightedMember)
        ∈ Example.registry.members.entries := by
      rw [Example.registry_entries]
      simp
    have hout : Example.nodeA ∉ [x] := by
      rw [hx]
      decide
    have := hlow x (List.mem_singleton_self x) _ hA hout
    rw [hx, hlt] at this
    exact absurd this (by simp)
  · rw [hx]


/-! ## IntToFloat -/

theorem IntToFloat_eq (v : Nat) :
    IntToFloat v = F64.fin (((v % 2 ^ 53 : Nat) : ℚ) / 2 ^ 53) := by
  have h : (v % 2 ^ 64) &&& FiftyThreeOnes = v % 2 ^ 53 := by
    rw [FiftyThreeOnes_eq, Nat.and_pow_two_sub_one_eq_mod]
    exact Nat.mod_mod_of_dvd v (Nat.pow_dvd_pow 2 (by decide))
  unfold IntToFloat
  rw [h, FiftyThreeZeros_eq]

/-- C11 (counterexample). `IntToFloat(0)` is exactly 0, so it is not above 0. -/
theorem C11_IntToFloat_zero :
    IntToFloat 0 = F64.fin 0 ∧ F64.lt (F64.fin 0) (IntToFloat 0) = false := by
  have h : IntToFloat 0 = F64.fin 0 := by
    rw [IntToFloat_eq]
    norm_num
  refine ⟨h, ?_⟩
  rw [h]
  exact F64.lt_irreflexive _

/-- C11 (amended). For every value `v`, `IntToFloat(v)` is finite, at least 0
and strictly below 1; it is exactly 0 precisely when the low 53 bits of `v` are
all zero, and it is never 1. -/
theorem C11_IntToFloat_half_open (v : Nat) :
    ∃ x : ℚ, IntToFloat v = F64.fin x ∧ 0 ≤ x ∧ x < 1 ∧ (x = 0 ↔ v % 2 ^ 53 = 0) ∧
      F64.le (F64.fin 0) (IntToFloat v) = true ∧ F64.lt (IntToFloat v) (F64.fin 1) = true ∧
      IntToFloat v ≠ F64.fin 1 := by
  have hlt : v % 2 ^ 53 < 2 ^ 53 := Nat.mod_lt _ (by positivity)
  have hx0 : (0 : ℚ) ≤ ((v % 2 ^ 53 : Nat) : ℚ) / 2 ^ 53 := by positivity
  have hx1 : ((v % 2 ^ 53 : Nat) : ℚ) / 2 ^ 53 < 1 := by
    rw [div_lt_one (by positivity)]
    exact_mod_cast hlt
  refine ⟨((v % 2 ^ 53 : Nat) : ℚ) / 2 ^ 53, IntToFloat_eq v, hx0, hx1, ?_, ?_, ?_, ?_⟩
  · rw [div_eq_zero_iff]
    constructor
    · rintro (h | h)
      · exact_mod_cast h
      · exact absurd h (by positivity)
    · intro h
      left
      exact_mod_cast h
  · rw [IntToFloat_eq]
    simp only [F64.le, F64.lt, F64.eq, Bool.or_eq_true, decide_eq_true_eq]
    exact lt_or_eq_of_le hx0
  · rw [IntToFloat_eq]
    simp only [F64.lt, decide_eq_true_eq]
    exact hx1
  · rw [IntToFloat_eq]
    intro h
    have := F64.fin.inj h
    linarith

/-- C12. `FiftyThreeOnes` is `2^53 - 1` and `FiftyThreeZeros` is `2^53`; for
every value `v`, `IntToFloat(v)` is exactly `(v mod 2^53) / 2^53`, where both
the masked integer and the quotient are values a `float64` holds (so neither
the conversion nor the division rounds); hence two values that agree on their
low 53 bits have the same `IntToFloat`. -/
theorem C12_IntToFloat_low_53_bits :
    FiftyThreeOnes = 2 ^ 53 - 1 ∧ FiftyThreeZeros = 2 ^ 53 ∧
    (∀ v : Nat, (v % 2 ^ 64) &&& FiftyThreeOnes = v % 2 ^ 53 ∧
      IntToFloat v = F64.fin (((v % 2 ^ 53 : Nat) : ℚ) / 2 ^ 53) ∧
      F64.Representable ((v % 2 ^ 53 : Nat) : ℚ) ∧
      F64.Representable (((v % 2 ^ 53 : Nat) : ℚ) / 2 ^ 53)) ∧
    (∀ v w : Nat, v % 2 ^ 53 = w % 2 ^ 53 → IntToFloat v = IntToFloat w) := by
  refine ⟨FiftyThreeOnes_eq, FiftyThreeZeros_eq, ?_, ?_⟩
  · intro v
    have hlt : v % 2 ^ 53 < 2 ^ 53 := Nat.mod_lt _ (by positivity)
    have habs : |((v % 2 ^ 53 : Nat) : ℤ)| < 2 ^ 53 := by
      rw [abs_of_nonneg (by positivity)]
      exact_mod_cast hlt
    refine ⟨?_, IntToFloat_eq v, ?_, ?_⟩
    · rw [FiftyThreeOnes_eq, Nat.and_pow_two_sub_one_eq_mod]
      exact Nat.mod_mod_of_dvd v (Nat.pow_dvd_pow 2 (by decide))
    · refine ⟨((v % 2 ^ 53 : Nat) : ℤ), 0, habs, by norm_num, by norm_num, ?_⟩
      rw [zpow_zero, mul_one, Int.cast_natCast]
    · refine ⟨((v % 2 ^ 53 : Nat) : ℤ), -53, habs, by norm_num, by norm_num, ?_⟩
      rw [zpow_neg, div_eq_mul_inv, Int.cast_natCast]
      norm_cast
  · intro v w h
    rw [IntToFloat_eq, IntToFloat_eq, h]


/-! ## The score -/

theorem Memory.fromString_read (mem : Memory) (str : String) (spare : Nat) :
    (mem.fromString str spare).1.read (mem.fromString str spare).2 = bytesOf str := by
  simp [Memory.fromString, Memory.read, List.getD_eq_getElem?_getD]

theorem Memory.fromString_frame (mem : Memory) (str : String) (spare : Nat) (a : Nat)
    (ha : a < mem.arrays.length) :
    (mem.fromString str spare).1.arrays[a]? = mem.arrays[a]? := by
  simp [Memory.fromString, List.getElem?_append_left ha]

theorem Memory.append_frame (mem : Memory) (dst : Slice) (src : Bytes) (spare : Nat) (a : Nat)
    (ha : a < mem.arrays.length) (hne : a ≠ dst.array) :
    (mem.append dst src spare).1.arrays[a]? = mem.arrays[a]? := by
  unfold Memory.append
  split
  · simp [List.getElem?_set_ne (Ne.symm hne)]
  · simp [List.getElem?_append_left ha]

theorem take_drop_write (arr src rest : List Nat) (off len : Nat)
    (h : off + len ≤ arr.length) :
    ((arr.take (off + len) ++ src ++ rest).drop off).take (len + src.length)
      = (arr.drop off).take len ++ src := by
  have hA : (arr.take off).length = off := by
    rw [List.length_take]
    omega
  have hB : ((arr.drop off).take len ++ src).length = len + src.length := by
    rw [List.length_append, List.length_take, List.length_drop]
    omega
  have e : arr.take (off + len) = arr.take off ++ (arr.drop off).take len := List.take_add _ _ _
  rw [e, List.append_assoc, List.append_assoc, List.drop_left' hA,
    ← List.append_assoc, List.take_left' hB]

theorem Memory.append_read (mem : Memory) (dst : Slice) (src : Bytes) (spare : Nat)
    (harr : dst.array < mem.arrays.length)
    (hlen : dst.offset + dst.len ≤ (mem.arrays.getD dst.array []).length) :
    (mem.append dst src spare).1.read (mem.append dst src spare).2 = mem.read dst ++ src := by
  unfold Memory.append
  split
  · simp only [Memory.read]
    generalize mem.arrays.getD dst.array [] = arr at hlen
    rw [List.getD_eq_getElem?_getD, List.getElem?_set_self harr]
    exact take_drop_write arr src _ dst.offset dst.len hlen
  · simp only [Memory.read]
    generalize mem.arrays.getD dst.array [] = arr at hlen
    have hB : ((arr.drop dst.offset).take dst.len ++ src).length = dst.len + src.length := by
      rw [List.length_append, List.length_take, List.length_drop]
      omega
    rw [List.getD_eq_getElem?_getD, List.getElem?_concat_length]
    simp only [Option.getD_some, List.drop_zero]
    rw [List.take_left' hB]

theorem Memory.read_congr (mem mem2 : Memory) (s : Slice)
    (h : mem2.arrays[s.array]? = mem.arrays[s.array]?) : mem2.read s = mem.read s := by
  unfold Memory.read
  rw [List.getD_eq_getElem?_getD, List.getD_eq_getElem?_getD, h]

/-- C13. `ComputeWeightedScore(m, key)`, run on a memory holding the slice
`key`, returns the score of the spec,
`weight * (1 / -ln(uniform_conversion(hash(name || key))))` in `float64`
arithmetic: the hasher is applied to exactly the bytes of `m.String()` followed
by the bytes `key` shows (`IntToFloat` being the low 53 bits over `2^53`), so
the score depends on the member only through its name and weight.  The call
leaves every array that existed before it unchanged, in particular the bytes
of `key`, whatever capacities the runtime gives the two allocations. -/
theorem C13_score_formula (env : FloatEnv) (r : Rendezvous) (m : WeightedMember)
    (key : Slice) (spare1 spare2 : Nat) (mem : Memory) (hkey : key.array < mem.arrays.length) :
    (r.ComputeWeightedScoreMem env m key spare1 spare2 mem).2
      = Spec.score env r.hasher m.Weight m.String (mem.read key) ∧
    (r.ComputeWeightedScoreMem env m key spare1 spare2 mem).2
      = r.ComputeWeightedScore env m (mem.read key) ∧
    (∀ a, a < mem.arrays.length →
      (r.ComputeWeightedScoreMem env m key spare1 spare2 mem).1.arrays[a]? = mem.arrays[a]?) ∧
    (r.ComputeWeightedScoreMem env m key spare1 spare2 mem).1.read key = mem.read key := by
  have hn : (mem.fromString m.String spare1).2.array = mem.arrays.length := rfl
  have hlen1 : (mem.fromString m.String spare1).1.arrays.length = mem.arrays.length + 1 := by
    simp [Memory.fromString]
  have hkey1 : (mem.fromString m.String spare1).1.read key = mem.read key :=
    Memory.read_congr _ _ _ (Memory.fromString_frame mem m.String spare1 key.array hkey)
  have hbuf : ((mem.fromString m.String spare1).1.append (mem.fromString m.String spare1).2
        ((mem.fromString m.String spare1).1.read key) spare2).1.read
      ((mem.fromString m.String spare1).1.append (mem.fromString m.String spare1).2
        ((mem.fromString m.String spare1).1.read key) spare2).2
      = bytesOf m.String ++ mem.read key := by
    rw [Memory.append_read _ _ _ _ (by rw [hn, hlen1]; omega)
      (by simp [Memory.fromString, List.getD_eq_getElem?_getD]),
      Memory.fromString_read, hkey1]
  have hframe : ∀ a, a < mem.arrays.length →
      ((mem.fromString m.String spare1).1.append (mem.fromString m.String spare1).2
        ((mem.fromString m.String spare1).1.read key) spare2).1.arrays[a]? = mem.arrays[a]? := by
    intro a ha
    rw [Memory.append_frame _ _ _ _ a (by rw [hlen1]; omega) (by rw [hn]; omega),
      Memory.fromString_frame mem m.String spare1 a ha]
  refine ⟨?_, ?_, hframe, ?_⟩
  · unfold Rendezvous.ComputeWeightedScoreMem Spec.score Spec.uniform_conversion
    simp only [hbuf, IntToFloat_eq]
  · unfold Rendezvous.ComputeWeightedScoreMem Rendezvous.ComputeWeightedScore
    simp only [hbuf]
  · exact Memory.read_congr _ _ _ (hframe key.array hkey)

theorem C13_score_formula_witness :
    (Example.registry.ComputeWeightedScoreMem FloatEnv.exact Example.nodeA Example.keySlice
        0 0 Example.memory).2
      = Spec.score FloatEnv.exact Example.registry.hasher Example.nodeA.Weight
          Example.nodeA.String (Example.memory.read Example.keySlice) ∧
    (Example.registry.ComputeWeightedScoreMem FloatEnv.exact Example.nodeA Example.keySlice
        0 0 Example.memory).1.read Example.keySlice = Example.memory.read Example.keySlice ∧
    Example.memory.read Example.keySlice = Example.key :=
  ⟨(C13_score_formula FloatEnv.exact Example.registry Example.nodeA Example.keySlice 0 0
      Example.memory (by decide)).1,
    (C13_score_formula FloatEnv.exact Example.registry Example.nodeA Example.keySlice 0 0
      Example.memory (by decide)).2.2.2,
    by decide⟩

/-- The score of a member whose hash has its low 53 bits all zero is the
product of its weight and `0`. -/
theorem score_of_zero_draw (env : FloatEnv) (r : Rendezvous) (m : WeightedMember) (key : Bytes)
    (hz : (r.hasher (bytesOf m.String ++ key) % 2 ^ 64) % 2 ^ 53 = 0) :
    r.ComputeWeightedScore env m key = env.mul m.Weight (F64.fin 0) := by
  unfold Rendezvous.ComputeWeightedScore
  simp only [IntToFloat_eq, hz]
  simp [FloatEnv.Log, F64.neg, FloatEnv.div]

theorem Example.overflow_factor :
    FloatEnv.overflowing.div (F64.fin 1)
      (F64.neg (FloatEnv.overflowing.Log (F64.fin (1 / 2)))) = F64.fin (81 / 56) := by
  have hlog : FloatEnv.overflowing.logFin (1 / 2) = -(56 / 81) := by
    simp only [FloatEnv.overflowing, FloatEnv.exact]
    norm_num
  have h0 : ¬ ((1 / 2 : ℚ) < 0) := by norm_num
  have h00 : ¬ ((1 / 2 : ℚ) = 0) := by norm_num
  have hne : ¬ (- -(56 / 81 : ℚ) = 0) := by norm_num
  have hval : (1 : ℚ) / - -(56 / 81) = 81 / 56 := by norm_num
  have h1 : ¬ ((2 : ℚ) ^ 1024 ≤ 81 / 56) := by
    have : (81 / 56 : ℚ) < 2 ^ 1 := by norm_num
    have h2 : (2 : ℚ) ^ 1 ≤ 2 ^ 1024 := pow_le_pow_right₀ (by norm_num) (by norm_num)
    linarith
  have h2 : ¬ ((81 / 56 : ℚ) ≤ -(2 : ℚ) ^ 1024) := by
    have : (0 : ℚ) < 2 ^ 1024 := by positivity
    have : (0 : ℚ) < 81 / 56 := by norm_num
    linarith
  simp only [FloatEnv.Log, h0, h00, if_false, hlog, F64.neg, FloatEnv.div, hne, hval]
  show (if (2 : ℚ) ^ 1024 ≤ 81 / 56 then F64.pinf
    else if (81 / 56 : ℚ) ≤ -(2 : ℚ) ^ 1024 then F64.ninf else F64.fin (81 / 56)) = _
  rw [if_neg h1, if_neg h2]

theorem Example.overflow_score (w : ℚ) (hw : (2 : ℚ) ^ 1024 ≤ w * (81 / 56))
    (m : WeightedMember) (hm : m.Weight = F64.fin w) (hn : m.String = "b") :
    Example.registry.ComputeWeightedScore FloatEnv.overflowing m Example.key = F64.pinf := by
  have hh : Example.registry.hasher (bytesOf m.String ++ Example.key) % 2 ^ 64 = 2 ^ 52 := by
    rw [hn]
    decide
  unfold Rendezvous.ComputeWeightedScore
  simp only [hh, Example.unit_nodeB, hm, Example.overflow_factor, FloatEnv.mul]
  show (if (2 : ℚ) ^ 1024 ≤ w * (81 / 56) then F64.pinf
    else if w * (81 / 56) ≤ -(2 : ℚ) ^ 1024 then F64.ninf else F64.fin (w * (81 / 56))) = _
  rw [if_pos hw]

/-- C14 (counterexample). A larger weight without a larger score, twice.
(1) Two members named `c`, of weights 1 and 2: the hash of `c` followed by the
key has its low 53 bits zero, both scores are 0.  (2) Two members named `b`, of
the finite weights `1.5 * 2^1023` and `1.75 * 2^1023`, on a draw that is not
zero (unit float `1/2`): in arithmetic that overflows as `float64` does, both
products exceed the largest `float64` and both scores are `+Inf`. -/
theorem C14_larger_weight_equal_score :
    (Example.registry.ComputeWeightedScore FloatEnv.exact Example.nodeC Example.key
        = F64.fin 0 ∧
      Example.registry.ComputeWeightedScore FloatEnv.exact Example.heavyC Example.key
        = F64.fin 0 ∧
      F64.gt
        (Example.registry.ComputeWeightedScore FloatEnv.exact Example.heavyC Example.key)
        (Example.registry.ComputeWeightedScore FloatEnv.exact Example.nodeC Example.key)
        = false) ∧
    (Example.registry.ComputeWeightedScore FloatEnv.overflowing Example.hugeB Example.key
        = F64.pinf ∧
      Example.registry.ComputeWeightedScore FloatEnv.overflowing Example.hugerB Example.key
        = F64.pinf ∧
      F64.gt
        (Example.registry.ComputeWeightedScore FloatEnv.overflowing Example.hugerB Example.key)
        (Example.registry.ComputeWeightedScore FloatEnv.overflowing Example.hugeB Example.key)
        = false) := by
  have hz : (Example.registry.hasher (bytesOf Example.nodeC.String ++ Example.key) % 2 ^ 64)
      % 2 ^ 53 = 0 := by decide
  have h1 : Example.registry.ComputeWeightedScore FloatEnv.exact Example.nodeC Example.key
      = F64.fin 0 := by
    rw [score_of_zero_draw _ _ _ _ hz]
    simp [FloatEnv.mul, FloatEnv.exact, Example.nodeC]
  have hz2 : (Example.registry.hasher (bytesOf Example.heavyC.String ++ Example.key) % 2 ^ 64)
      % 2 ^ 53 = 0 := by decide
  have h2 : Example.registry.ComputeWeightedScore FloatEnv.exact
      Example.heavyC Example.key = F64.fin 0 := by
    rw [score_of_zero_draw _ _ _ _ hz2]
    simp [FloatEnv.mul, FloatEnv.exact, Example.heavyC]
  have e3 : (2 : ℚ) ^ 1024 = 4 * 2 ^ 1022 := by
    rw [show (1024 : ℕ) = 2 + 1022 from rfl, pow_add]
    norm_num
  have e4 : (2 : ℚ) ^ 1024 = 8 * 2 ^ 1021 := by
    rw [show (1024 : ℕ) = 3 + 1021 from rfl, pow_add]
    norm_num
  have p3 : (0 : ℚ) < 2 ^ 1022 := by positivity
  have p4 : (0 : ℚ) < 2 ^ 1021 := by positivity
  have h3 := Example.overflow_score (3 * 2 ^ 1022) (by rw [e3]; nlinarith) Example.hugeB rfl rfl
  have h4 := Example.overflow_score (7 * 2 ^ 1021) (by rw [e4]; nlinarith) Example.hugerB rfl rfl
  refine ⟨⟨h1, h2, ?_⟩, h3, h4, ?_⟩
  · rw [h1, h2]
    exact F64.lt_irreflexive _
  · rw [h3, h4]
    rfl

theorem F64.lt_of_le_of_ne {a b : F64} (h : F64.le a b = true) (hne : a ≠ b) :
    F64.lt a b = true := by
  cases a <;> cases b <;> simp_all [F64.le, F64.lt, F64.eq]

/-- C14 (amended). Fix a hasher, a name and a key, and let the factor
`1.0 / -math.Log(IntToFloat(hash))` be the finite value `q` (it is finite for
every hash in `float64`).  For all finite weights `w1 < w2` the score of the
member of weight `w2` is `>=` the score of the member of weight `w1`, and it is
strictly greater unless rounding gives the two products `w1 * q` and `w2 * q`
the same `float64`; when the low 53 bits of the hash are zero both scores
are 0. -/
theorem C14_score_monotone_in_weight (env : FloatEnv) (r : Rendezvous)
    (m1 m2 : WeightedMember) (key : Bytes) (w1 w2 q : ℚ)
    (hname : m1.String = m2.String) (h1 : m1.Weight = F64.fin w1) (h2 : m2.Weight = F64.fin w2)
    (hlt : w1 < w2)
    (hfactor : env.div (F64.fin 1) (F64.neg (env.Log
      (IntToFloat (r.hasher (bytesOf m1.String ++ key) % 2 ^ 64)))) = F64.fin q) :
    F64.ge (r.ComputeWeightedScore env m2 key) (r.ComputeWeightedScore env m1 key) = true ∧
    (env.round (w1 * q) ≠ env.round (w2 * q) →
      F64.gt (r.ComputeWeightedScore env m2 key) (r.ComputeWeightedScore env m1 key) = true) ∧
    ((r.hasher (bytesOf m1.String ++ key) % 2 ^ 64) % 2 ^ 53 = 0 →
      r.ComputeWeightedScore env m1 key = F64.fin 0 ∧
      r.ComputeWeightedScore env m2 key = F64.fin 0) := by
  have hq : 0 ≤ q := by
    rcases score_factor_nonneg env (r.hasher (bytesOf m1.String ++ key) % 2 ^ 64) with
      h | ⟨p, hp, h⟩
    · rw [hfactor] at h
      exact F64.noConfusion h
    · rw [hfactor] at h
      rw [F64.fin.inj h]
      exact hp
  have hs1 : r.ComputeWeightedScore env m1 key = env.round (w1 * q) := by
    unfold Rendezvous.ComputeWeightedScore
    simp only [h1, hfactor, FloatEnv.mul]
  have hs2 : r.ComputeWeightedScore env m2 key = env.round (w2 * q) := by
    unfold Rendezvous.ComputeWeightedScore
    simp only [← hname, h2, hfactor, FloatEnv.mul]
  have hle : F64.le (env.round (w1 * q)) (env.round (w2 * q)) = true :=
    env.round_mono _ _ (mul_le_mul_of_nonneg_right (le_of_lt hlt) hq)
  refine ⟨?_, ?_, ?_⟩
  · rw [hs1, hs2]
    exact hle
  · intro hne
    rw [hs1, hs2]
    exact F64.lt_of_le_of_ne hle hne
  · intro hz
    have hz2 : (r.hasher (bytesOf m2.String ++ key) % 2 ^ 64) % 2 ^ 53 = 0 := by
      rw [← hname]
      exact hz
    rw [score_of_zero_draw env r m1 key hz, score_of_zero_draw env r m2 key hz2, h1, h2]
    simp [FloatEnv.mul, env.round_zero]

theorem Example.factor_nodeA :
    FloatEnv.exact.div (F64.fin 1) (F64.neg (FloatEnv.exact.Log
      (IntToFloat (Example.registry.hasher (bytesOf Example.nodeA.String ++ Example.key)
        % 2 ^ 64)))) = F64.fin (125 / 168) := by
  simp only [Example.hash_nodeA, Example.unit_nodeA]
  simp only [FloatEnv.Log, FloatEnv.exact, F64.neg, FloatEnv.div]
  norm_num

theorem C14_score_monotone_in_weight_witness :
    F64.ge (Example.registry.ComputeWeightedScore FloatEnv.exact Example.heavyA Example.key)
        (Example.registry.ComputeWeightedScore FloatEnv.exact Example.nodeA Example.key)
        = true ∧
    F64.gt (Example.registry.ComputeWeightedScore FloatEnv.exact Example.heavyA Example.key)
        (Example.registry.ComputeWeightedScore FloatEnv.exact Example.nodeA Example.key)
        = true :=
  ⟨(C14_score_monotone_in_weight FloatEnv.exact Example.registry Example.nodeA Example.heavyA
      Example.key 1 2 (125 / 168) rfl rfl rfl (by norm_num) Example.factor_nodeA).1,
    (C14_score_monotone_in_weight FloatEnv.exact Example.registry Example.nodeA Example.heavyA
      Example.key 1 2 (125 / 168) rfl rfl rfl (by norm_num) Example.factor_nodeA).2.1
      (by
        intro h
        have := F64.fin.inj h
        norm_num at this)⟩

/-- Without rounding the score is strictly increasing in the weight on every
draw but the zero draw: in the arithmetic `FloatEnv.exact`, for finite weights
`w1 < w2` and a hash whose low 53 bits are not all zero, the score of the member
of weight `w2` is strictly greater. -/
theorem score_strict_in_exact_arithmetic (r : Rendezvous) (m1 m2 : WeightedMember)
    (key : Bytes) (w1 w2 : ℚ) (hname : m1.String = m2.String)
    (h1 : m1.Weight = F64.fin w1) (h2 : m2.Weight = F64.fin w2) (hlt : w1 < w2)
    (hdraw : (r.hasher (bytesOf m1.String ++ key) % 2 ^ 64) % 2 ^ 53 ≠ 0) :
    F64.gt (r.ComputeWeightedScore FloatEnv.exact m2 key)
      (r.ComputeWeightedScore FloatEnv.exact m1 key) = true := by
  have hx1 : (((r.hasher (bytesOf m1.String ++ key) % 2 ^ 64) % 2 ^ 53 : Nat) : ℚ) / 2 ^ 53
      < 1 := by
    rw [div_lt_one (by positivity)]
    exact_mod_cast Nat.mod_lt _ (by positivity)
  have hx0 : (0 : ℚ)
      < (((r.hasher (bytesOf m1.String ++ key) % 2 ^ 64) % 2 ^ 53 : Nat) : ℚ) / 2 ^ 53 := by
    apply div_pos _ (by positivity)
    exact_mod_cast Nat.pos_of_ne_zero hdraw
  have hl := FloatEnv.exact.logFin_neg _ hx0 hx1
  unfold Rendezvous.ComputeWeightedScore F64.gt
  simp only [← hname, h1, h2, IntToFloat_eq]
  generalize (((r.hasher (bytesOf m1.String ++ key) % 2 ^ 64) % 2 ^ 53 : Nat) : ℚ) / 2 ^ 53
    = x at hx0 hx1 hl
  have hnlt : ¬ x < 0 := not_lt.mpr (le_of_lt hx0)
  have hne : x ≠ 0 := ne_of_gt hx0
  have hne2 : -FloatEnv.exact.logFin x ≠ 0 := by linarith
  simp only [FloatEnv.Log, hnlt, hne, if_false, F64.neg, FloatEnv.div, hne2, FloatEnv.mul]
  have hq : 0 < 1 / -FloatEnv.exact.logFin x := by
    apply div_pos one_pos
    linarith
  show F64.lt (F64.fin (w1 * (1 / -FloatEnv.exact.logFin x)))
    (F64.fin (w2 * (1 / -FloatEnv.exact.logFin x))) = true
  simp only [F64.lt, decide_eq_true_eq]
  exact mul_lt_mul_of_pos_right hlt hq

/-! ## Determinism and the sentinel of LocateKey -/

theorem Example.tieRegistry_entries :
    Example.tieRegistry.members.entries = [⟨"d", Example.nodeD⟩, ⟨"c", Example.nodeC⟩] := by
  decide

theorem Example.tie_score_nodeC :
    Example.tieRegistry.ComputeWeightedScore FloatEnv.exact Example.nodeC Example.key
      = F64.fin 0 := by
  have hz : (Example.tieRegistry.hasher (bytesOf Example.nodeC.String ++ Example.key) % 2 ^ 64)
      % 2 ^ 53 = 0 := by decide
  rw [score_of_zero_draw _ _ _ _ hz]
  simp [FloatEnv.mul, FloatEnv.exact, Example.nodeC]

theorem Example.tie_score_nodeD :
    Example.tieRegistry.ComputeWeightedScore FloatEnv.exact Example.nodeD Example.key
      = F64.fin 0 := by
  have hz : (Example.tieRegistry.hasher (bytesOf Example.nodeD.String ++ Example.key) % 2 ^ 64)
      % 2 ^ 53 = 0 := by decide
  rw [score_of_zero_draw _ _ _ _ hz]
  simp [FloatEnv.mul, FloatEnv.exact, Example.nodeD]

/-- C15 (counterexample). Registry `{c, d}` with equal scores: enumerated as
`c, d` the map makes `LocateKey` return `c`, enumerated as `d, c` it makes
`LocateKey` return `d`. -/
theorem C15_LocateKey_depends_on_order :
    Example.tieRegistry.Enumerates [⟨"c", Example.nodeC⟩, ⟨"d", Example.nodeD⟩] ∧
    Example.tieRegistry.Enumerates [⟨"d", Example.nodeD⟩, ⟨"c", Example.nodeC⟩] ∧
    Example.tieRegistry.LocateKey FloatEnv.exact
      [⟨"c", Example.nodeC⟩, ⟨"d", Example.nodeD⟩] Example.key = some Example.nodeC ∧
    Example.tieRegistry.LocateKey FloatEnv.exact
      [⟨"d", Example.nodeD⟩, ⟨"c", Example.nodeC⟩] Example.key = some Example.nodeD ∧
    Example.nodeC ≠ Example.nodeD := by
  refine ⟨?_, ?_, ?_, ?_, by decide⟩
  · unfold Rendezvous.Enumerates
    rw [Example.tieRegistry_entries]
    exact List.Perm.swap _ _ _
  · unfold Rendezvous.Enumerates
    rw [Example.tieRegistry_entries]
  · unfold Rendezvous.LocateKey
    simp only [List.foldl, Rendezvous.locateStep, Example.tie_score_nodeC,
      Example.tie_score_nodeD, F64.gt, F64.lt]
    norm_num
  · unfold Rendezvous.LocateKey
    simp only [List.foldl, Rendezvous.locateStep, Example.tie_score_nodeC,
      Example.tie_score_nodeD, F64.gt, F64.lt]
    norm_num

/-- C15 (amended). For a key at which no two distinct members tie for a highest
score above `-1.0` (whenever a member scores above `-1.0` and no member scores
higher, no other member has an equal score), `LocateKey` returns the same
member for every two orders in which the map can be enumerated.  Ties among
members that do not win are allowed. -/
theorem C15_LocateKey_deterministic (env : FloatEnv) (r : Rendezvous)
    (enum1 enum2 : List (Sigma fun _ : String => WeightedMember)) (key : Bytes)
    (h1 : r.Enumerates enum1) (h2 : r.Enumerates enum2)
    (hmax : ∀ e1 ∈ r.members.entries, ∀ e2 ∈ r.members.entries, e1 ≠ e2 →
      F64.gt (r.ComputeWeightedScore env e1.2 key) (F64.fin (-1)) = true →
      (∀ e ∈ r.members.entries,
        F64.lt (r.ComputeWeightedScore env e1.2 key) (r.ComputeWeightedScore env e.2 key)
          = false) →
      F64.eq (r.ComputeWeightedScore env e1.2 key) (r.ComputeWeightedScore env e2.2 key)
        = false) :
    r.LocateKey env enum1 key = r.LocateKey env enum2 key := by
  have h12 : ∀ x ∈ enum1, x ∈ enum2 := fun x hx => h2.symm.subset (h1.subset hx)
  have h21 : ∀ x ∈ enum2, x ∈ enum1 := fun x hx => h1.symm.subset (h2.subset hx)
  rcases LocateKey_spec env r enum1 key with ⟨hn1, hall1⟩ | ⟨e, he, heq, hgt, hmx⟩
  · rcases LocateKey_spec env r enum2 key with ⟨hn2, _⟩ | ⟨e2, he2, _, hgt2, _⟩
    · rw [hn1, hn2]
    · have := hall1 e2 (h21 e2 he2)
      rw [hgt2] at this
      exact absurd this (by simp)
  · rcases LocateKey_spec env r enum2 key with ⟨_, hall2⟩ | ⟨e2, he2, heq2, hgt2, hmx2⟩
    · have := hall2 e (h12 e he)
      rw [hgt] at this
      exact absurd this (by simp)
    · have ha := hmx e2 (h21 e2 he2)
      have hb := hmx2 e (h12 e he)
      have hEq := F64.eq_of_not_lt hgt hgt2 ha hb
      by_cases hee : e = e2
      · rw [heq, heq2, hee]
      · have := hmax e (h1.subset he) e2 (h2.subset he2) hee hgt
          (fun x hx => hmx x (h1.symm.subset hx))
        rw [hEq] at this
        exact absurd this (by simp)

theorem Example.loserTieRegistry_entries :
    Example.loserTieRegistry.members.entries
      = [⟨"d", Example.nodeD⟩, ⟨"c", Example.nodeC⟩, ⟨"a", Example.nodeA⟩] := by
  decide

/-- In the registry `{a, c, d}` the members `c` and `d` tie at score 0 while
`a` alone has the highest score. -/
theorem Example.loserTieRegistry_scores :
    Example.loserTieRegistry.ComputeWeightedScore FloatEnv.exact Example.nodeA Example.key
      = F64.fin (125 / 168) ∧
    Example.loserTieRegistry.ComputeWeightedScore FloatEnv.exact Example.nodeC Example.key
      = F64.fin 0 ∧
    Example.loserTieRegistry.ComputeWeightedScore FloatEnv.exact Example.nodeD Example.key
      = F64.fin 0 := by
  refine ⟨?_, ?_, ?_⟩
  · rw [ComputeWeightedScore_hasher FloatEnv.exact Example.registry Example.loserTieRegistry rfl]
    exact Example.score_nodeA
  · rw [ComputeWeightedScore_hasher FloatEnv.exact Example.tieRegistry
      Example.loserTieRegistry rfl]
    exact Example.tie_score_nodeC
  · rw [ComputeWeightedScore_hasher FloatEnv.exact Example.tieRegistry
      Example.loserTieRegistry rfl]
    exact Example.tie_score_nodeD

theorem Example.loserTieRegistry_unique_maximum :
    ∀ e1 ∈ Example.loserTieRegistry.members.entries,
      ∀ e2 ∈ Example.loserTieRegistry.members.entries, e1 ≠ e2 →
      F64.gt (Example.loserTieRegistry.ComputeWeightedScore FloatEnv.exact e1.2 Example.key)
        (F64.fin (-1)) = true →
      (∀ e ∈ Example.loserTieRegistry.members.entries,
        F64.lt (Example.loserTieRegistry.ComputeWeightedScore FloatEnv.exact e1.2 Example.key)
          (Example.loserTieRegistry.ComputeWeightedScore FloatEnv.exact e.2 Example.key)
          = false) →
      F64.eq (Example.loserTieRegistry.ComputeWeightedScore FloatEnv.exact e1.2 Example.key)
        (Example.loserTieRegistry.ComputeWeightedScore FloatEnv.exact e2.2 Example.key)
        = false := by
  obtain ⟨hA, hC, hD⟩ := Example.loserTieRegistry_scores
  have hAmem : (⟨"a", Example.nodeA⟩ : Sigma fun _ : String => WeightedMember)
      ∈ Example.loserTieRegistry.members.entries := by
    rw [Example.loserTieRegistry_entries]
    simp
  intro e1 he1 e2 he2 hne _ hmx
  rw [Example.loserTieRegistry_entries] at he1 he2
  simp only [List.mem_cons, List.mem_singleton, List.not_mem_nil, or_false] at he1 he2
  rcases he1 with rfl | rfl | rfl
  · have := hmx _ hAmem
    simp only [hA, hD, F64.lt] at this
    norm_num at this
  · have := hmx _ hAmem
    simp only [hA, hC, F64.lt] at this
    norm_num at this
  · rcases he2 with rfl | rfl | rfl
    · simp only [hA, hD, F64.eq]
      norm_num
    · simp only [hA, hC, F64.eq]
      norm_num
    · exact absurd rfl hne

theorem C15_LocateKey_deterministic_witness :
    Example.loserTieRegistry.LocateKey FloatEnv.exact
        [⟨"c", Example.nodeC⟩, ⟨"d", Example.nodeD⟩, ⟨"a", Example.nodeA⟩] Example.key
      = Example.loserTieRegistry.LocateKey FloatEnv.exact
          Example.loserTieRegistry.members.entries Example.key :=
  C15_LocateKey_deterministic FloatEnv.exact Example.loserTieRegistry
    [⟨"c", Example.nodeC⟩, ⟨"d", Example.nodeD⟩, ⟨"a", Example.nodeA⟩]
    Example.loserTieRegistry.members.entries Example.key
    (by
      unfold Rendezvous.Enumerates
      rw [Example.loserTieRegistry_entries]
      exact List.Perm.swap _ _ _)
    (List.Perm.refl _) Example.loserTieRegistry_unique_maximum

/-- An entry whose score is above `-1.0` and exceeded by none wins when the map
enumerates it first. -/
theorem LocateKey_first_wins (env : FloatEnv) (r : Rendezvous) (key : Bytes)
    (e : Sigma fun _ : String => WeightedMember)
    (rest : List (Sigma fun _ : String => WeightedMember))
    (hgt : F64.gt (r.ComputeWeightedScore env e.2 key) (F64.fin (-1)) = true)
    (hmax : ∀ x ∈ rest,
      F64.lt (r.ComputeWeightedScore env e.2 key) (r.ComputeWeightedScore env x.2 key) = false) :
    r.LocateKey env (e :: rest) key = some e.2 := by
  unfold Rendezvous.LocateKey
  rw [List.foldl_cons]
  have hstep : r.locateStep env key (F64.fin (-1), none) e
      = (r.ComputeWeightedScore env e.2 key, some e.2) := by
    simp [Rendezvous.locateStep, hgt]
  rw [hstep]
  rcases locate_fold env r key rest (r.ComputeWeightedScore env e.2 key) (some e.2) with
    ⟨heq, _⟩ | ⟨x, hx, _, hlt, _⟩
  · rw [heq]
  · rw [hmax x hx] at hlt
    exact absurd hlt (by simp)

/-- The condition of C15 cannot be dropped: when two distinct members tie for a
highest score above `-1.0`, two enumeration orders of the map make `LocateKey`
return different members. -/
theorem LocateKey_tie_depends_on_order (env : FloatEnv) (r : Rendezvous) (key : Bytes)
    (hkeys : r.KeysAreNames)
    (e1 e2 : Sigma fun _ : String => WeightedMember)
    (he1 : e1 ∈ r.members.entries) (he2 : e2 ∈ r.members.entries) (hne : e1 ≠ e2)
    (hgt : F64.gt (r.ComputeWeightedScore env e1.2 key) (F64.fin (-1)) = true)
    (hmax : ∀ e ∈ r.members.entries,
      F64.lt (r.ComputeWeightedScore env e1.2 key) (r.ComputeWeightedScore env e.2 key) = false)
    (htie : F64.eq (r.ComputeWeightedScore env e1.2 key) (r.ComputeWeightedScore env e2.2 key)
      = true) :
    ∃ enum1 enum2, r.Enumerates enum1 ∧ r.Enumerates enum2 ∧
      r.LocateKey env enum1 key ≠ r.LocateKey env enum2 key := by
  have hsame : r.ComputeWeightedScore env e2.2 key = r.ComputeWeightedScore env e1.2 key := by
    generalize r.ComputeWeightedScore env e1.2 key = a at htie
    generalize r.ComputeWeightedScore env e2.2 key = b at htie
    cases a <;> cases b <;> simp_all [F64.eq]
  refine ⟨e1 :: r.members.entries.erase e1, e2 :: r.members.entries.erase e2,
    List.perm_cons_erase he1 |>.symm, List.perm_cons_erase he2 |>.symm, ?_⟩
  rw [LocateKey_first_wins env r key e1 _ hgt
      (fun x hx => hmax x (List.mem_of_mem_erase hx)),
    LocateKey_first_wins env r key e2 _ (by rw [hsame]; exact hgt)
      (fun x hx => by rw [hsame]; exact hmax x (List.mem_of_mem_erase hx))]
  intro h
  have hm : e1.2 = e2.2 := Option.some.inj h
  apply hne
  have hk : e1.1 = e2.1 := by rw [hkeys e1 he1, hkeys e2 he2, hm]
  rcases e1 with ⟨k1, m1⟩
  rcases e2 with ⟨k2, m2⟩
  simp only at hk hm
  subst hk
  subst hm
  rfl

/-- A score that is `<= -1.0` belongs to a member of negative weight. -/
theorem weight_negative_of_score_le (env : FloatEnv) (r : Rendezvous) (m : WeightedMember)
    (key : Bytes) (h : F64.le (r.ComputeWeightedScore env m key) (F64.fin (-1)) = true) :
    m.Weight = F64.ninf ∨ ∃ w : ℚ, w < 0 ∧ m.Weight = F64.fin w := by
  have hdef : r.ComputeWeightedScore env m key = env.mul m.Weight (env.div (F64.fin 1)
      (F64.neg (env.Log (IntToFloat (r.hasher (bytesOf m.String ++ key) % 2 ^ 64))))) := rfl
  rw [hdef] at h
  have hfac := score_factor_nonneg env (r.hasher (bytesOf m.String ++ key) % 2 ^ 64)
  generalize env.div (F64.fin 1)
    (F64.neg (env.Log (IntToFloat (r.hasher (bytesOf m.String ++ key) % 2 ^ 64)))) = f at h hfac
  cases hw : m.Weight with
  | nan =>
    rw [hw] at h
    simp [FloatEnv.mul, F64.le, F64.lt, F64.eq] at h
  | ninf => exact Or.inl rfl
  | pinf =>
    exfalso
    rw [hw] at h
    rcases hfac with hf | ⟨q, hq, hf⟩
    · rw [hf] at h
      simp [FloatEnv.mul, F64.le, F64.lt, F64.eq] at h
    · rw [hf] at h
      simp only [FloatEnv.mul] at h
      by_cases hq0 : q = 0
      · simp [hq0, F64.le, F64.lt, F64.eq] at h
      · have hqp : 0 < q := lt_of_le_of_ne hq (Ne.symm hq0)
        simp [hq0, hqp, F64.le, F64.lt, F64.eq] at h
  | fin w =>
    by_cases hneg : w < 0
    · exact Or.inr ⟨w, hneg, rfl⟩
    · exfalso
      have hw0 : 0 ≤ w := not_lt.mp hneg
      rw [hw] at h
      rcases hfac with hf | ⟨q, hq, hf⟩
      · rw [hf] at h
        simp only [FloatEnv.mul] at h
        by_cases hz : w = 0
        · simp [hz, F64.le, F64.lt, F64.eq] at h
        · have hwp : 0 < w := lt_of_le_of_ne hw0 (Ne.symm hz)
          simp [hz, hwp, F64.le, F64.lt, F64.eq] at h
      · rw [hf] at h
        simp only [FloatEnv.mul] at h
        rcases env.round_nonneg (mul_nonneg hw0 hq) with hp | ⟨p, hp0, hp⟩
        · rw [hp] at h
          simp [F64.le, F64.lt, F64.eq] at h
        · rw [hp] at h
          simp only [F64.le, F64.lt, F64.eq, Bool.or_eq_true, decide_eq_true_eq] at h
          rcases h with h | h <;> linarith


theorem F64.not_lt_of_le {a b : F64} (h : F64.le a b = true) : F64.lt b a = false := by
  cases a <;> cases b <;> simp_all [F64.le, F64.lt, F64.eq]
  rcases h with h | h
  · exact le_of_lt h
  · exact le_of_eq h

/-- C19. `LocateKey` returns a member exactly when some member of the registry
has a score strictly greater than `-1.0`.  When every score is `<= -1.0` it
returns the nil member, as it does on an empty registry; and a score `<= -1.0`
occurs only for a member of negative weight. -/
theorem C19_LocateKey_sentinel (env : FloatEnv) (r : Rendezvous)
    (enum : List (Sigma fun _ : String => WeightedMember)) (key : Bytes)
    (henum : r.Enumerates enum) :
    ((∃ m, r.LocateKey env enum key = some m) ↔
      ∃ e ∈ r.members.entries,
        F64.gt (r.ComputeWeightedScore env e.2 key) (F64.fin (-1)) = true) ∧
    ((∀ e ∈ r.members.entries,
        F64.le (r.ComputeWeightedScore env e.2 key) (F64.fin (-1)) = true) →
      r.LocateKey env enum key = none) ∧
    (∀ e ∈ r.members.entries,
      F64.le (r.ComputeWeightedScore env e.2 key) (F64.fin (-1)) = true →
      e.2.Weight = F64.ninf ∨ ∃ w : ℚ, w < 0 ∧ e.2.Weight = F64.fin w) := by
  refine ⟨⟨?_, ?_⟩, ?_, ?_⟩
  · rintro ⟨m, hm⟩
    rcases LocateKey_spec env r enum key with ⟨hnone, _⟩ | ⟨e, he, _, hgt, _⟩
    · rw [hnone] at hm
      exact absurd hm (by simp)
    · exact ⟨e, henum.subset he, hgt⟩
  · rintro ⟨e, he, hgt⟩
    rcases LocateKey_spec env r enum key with ⟨_, hall⟩ | ⟨e2, _, heq, _, _⟩
    · have := hall e (henum.symm.subset he)
      unfold F64.gt at hgt
      rw [hgt] at this
      exact absurd this (by simp)
    · exact ⟨e2.2, heq⟩
  · intro hle
    rcases LocateKey_spec env r enum key with ⟨hnone, _⟩ | ⟨e, he, _, hgt, _⟩
    · exact hnone
    · have := F64.not_lt_of_le (hle e (henum.subset he))
      rw [hgt] at this
      exact absurd this (by simp)
  · intro e _ hle
    exact weight_negative_of_score_le env r e.2 key hle

theorem Example.negRegistry_entries :
    Example.negRegistry.members.entries = [⟨"b", Example.negB⟩] := by
  decide

theorem Example.score_negB :
    Example.negRegistry.ComputeWeightedScore FloatEnv.exact Example.negB Example.key
      = F64.fin (-(81 / 28)) := by
  have hh : Example.negRegistry.hasher (bytesOf Example.negB.String ++ Example.key) % 2 ^ 64
      = 2 ^ 52 := by decide
  unfold Rendezvous.ComputeWeightedScore
  simp only [hh, Example.unit_nodeB]
  simp only [FloatEnv.Log, FloatEnv.exact, F64.neg, FloatEnv.div, FloatEnv.mul, Example.negB]
  norm_num

theorem Example.negRegistry_scores :
    ∀ e ∈ Example.negRegistry.members.entries,
      F64.le (Example.negRegistry.ComputeWeightedScore FloatEnv.exact e.2 Example.key)
        (F64.fin (-1)) = true := by
  intro e he
  rw [Example.negRegistry_entries] at he
  simp only [List.mem_singleton] at he
  subst he
  rw [Example.score_negB]
  simp only [F64.le, F64.lt, F64.eq]
  norm_num

theorem C19_LocateKey_sentinel_witness :
    Example.negRegistry.members.entries ≠ [] ∧
    Example.negRegistry.LocateKey FloatEnv.exact Example.negRegistry.members.entries
      Example.key = none :=
  ⟨by decide,
    (C19_LocateKey_sentinel FloatEnv.exact Example.negRegistry
      Example.negRegistry.members.entries Example.key (List.Perm.refl _)).2.1
      Example.negRegistry_scores⟩

/-! ## GetClosestN: negative counts, and count 1 -/

/-- C20. With a negative `count`, `GetClosestN` passes the guard
`count > len(r.members)`, returns neither `ErrInsufficientMemberCount` nor a
member list, and panics at `make([]WeightedMember, count)`.  It returns (a
member list or the error) if and only if `count >= 0`. -/
theorem C20_GetClosestN_negative_count (env : FloatEnv) (qs : quickselect) (r : Rendezvous)
    (enum : List (Sigma fun _ : String => WeightedMember)) (key : Bytes) (count : Int)
    (henum : r.Enumerates enum) :
    (count < 0 → r.GetClosestN env qs enum key count = (r, Outcome.panicked)) ∧
    ((∃ res, r.GetClosestN env qs enum key count = (r, Outcome.returned res)) ↔ 0 ≤ count) := by
  have hneg : count < 0 → r.GetClosestN env qs enum key count = (r, Outcome.panicked) := by
    intro h
    unfold Rendezvous.GetClosestN
    rw [if_neg (by omega)]
    simp only
    rw [if_pos h]
  refine ⟨hneg, ?_, ?_⟩
  · rintro ⟨res, hres⟩
    by_contra hc
    rw [hneg (by omega)] at hres
    exact Outcome.noConfusion (Prod.mk.inj hres).2
  · intro h0
    by_cases hN : count ≤ (r.members.entries.length : Int)
    · obtain ⟨ms, hms, _⟩ := GetClosestN_returns env qs r enum key count henum h0 hN
      exact ⟨_, hms⟩
    · refine ⟨([], some GoError.ErrInsufficientMemberCount), ?_⟩
      unfold Rendezvous.GetClosestN
      rw [if_pos (by omega)]

theorem C20_GetClosestN_negative_count_witness :
    Example.registry.GetClosestN FloatEnv.exact quickselect.bySorting
        Example.registry.members.entries Example.key (-1)
      = (Example.registry, Outcome.panicked) :=
  (C20_GetClosestN_negative_count FloatEnv.exact quickselect.bySorting Example.registry
    Example.registry.members.entries Example.key (-1) (List.Perm.refl _)).1 (by decide)


theorem Example.score_lt :
    F64.lt (Example.registry.ComputeWeightedScore FloatEnv.exact Example.nodeA Example.key)
      (Example.registry.ComputeWeightedScore FloatEnv.exact Example.nodeB Example.key)
        = true := by
  simp only [Example.score_nodeA, Example.score_nodeB, F64.lt]
  norm_num

/-- On the example registry `LocateKey` returns `b` for every enumeration order. -/
theorem Example.locate_any (enum : List (Sigma fun _ : String => WeightedMember))
    (henum : Example.registry.Enumerates enum) :
    Example.registry.LocateKey FloatEnv.exact enum Example.key = some Example.nodeB := by
  have hB : (⟨"b", Example.nodeB⟩ : Sigma fun _ : String => WeightedMember) ∈ enum := by
    apply henum.symm.subset
    rw [Example.registry_entries]
    simp
  rcases LocateKey_spec FloatEnv.exact Example.registry enum Example.key with
    ⟨_, hall⟩ | ⟨e, he, heq, _, hmax⟩
  · have := hall _ hB
    rw [Example.score_nodeB] at this
    simp only [F64.lt] at this
    norm_num at this
  · have he2 := henum.subset he
    rw [Example.registry_entries] at he2
    simp only [List.mem_cons, List.mem_singleton, List.not_mem_nil, or_false] at he2
    rcases he2 with rfl | rfl
    · exact heq
    · have := hmax _ hB
      rw [Example.score_lt] at this
      exact absurd this (by simp)

/-- On the example registry `GetClosestN(key, 1)` returns `[a]` for every
selection meeting the contract of `QuickSelect` and every enumeration order. -/
theorem Example.closest_one (qs : quickselect)
    (enum : List (Sigma fun _ : String => WeightedMember))
    (henum : Example.registry.Enumerates enum) :
    Example.registry.GetClosestN FloatEnv.exact qs enum Example.key 1
      = (Example.registry, Outcome.returned ([Example.nodeA], none)) := by
  have hnan : ∀ e ∈ Example.registry.members.entries,
      Example.registry.ComputeWeightedScore FloatEnv.exact e.2 Example.key ≠ F64.nan := by
    intro e he
    rw [Example.registry_entries] at he
    simp only [List.mem_cons, List.mem_singleton, List.not_mem_nil, or_false] at he
    rcases he with rfl | rfl
    · rw [Example.score_nodeB]
      exact fun h => F64.noConfusion h
    · rw [Example.score_nodeA]
      exact fun h => F64.noConfusion h
  obtain ⟨ms, hres, hlen, hmem, hlow⟩ :=
    GetClosestN_lowest FloatEnv.exact qs Example.registry enum Example.key 1 henum
      (by decide) (by decide) hnan
  rw [hres]
  have hone : ms.length = 1 := hlen
  obtain ⟨x, rfl⟩ := List.length_eq_one.mp hone
  obtain ⟨e, he, hx⟩ := hmem x (List.mem_singleton_self x)
  rw [Example.registry_entries] at he
  simp only [List.mem_cons, List.mem_singleton, List.not_mem_nil, or_false] at he
  rcases he with rfl | rfl
  · exfalso
    have hA : (⟨"a", Example.nodeA⟩ : Sigma fun _ : String => WeightedMember)
        ∈ Example.registry.members.entries := by
      rw [Example.registry_entries]
      simp
    have hout : Example.nodeA ∉ [x] := by
      rw [hx]
      decide
    have := hlow x (List.mem_singleton_self x) _ hA hout
    rw [hx, Example.score_lt] at this
    exact absurd this (by simp)
  · rw [hx]

/-- C17 (evaluation at the failing input). The registry `{a, b}` is non-empty,
its weights are positive and its scores at key `k` are distinct; yet for every
selection meeting the contract of `QuickSelect` and every enumeration order,
`GetClosestN(key, 1)` returns the one-element list `[a]` while `LocateKey(key)`
returns `b`. -/
theorem C17_GetClosestN_one_is_not_LocateKey :
    Example.registry.members.entries ≠ [] ∧
    (∀ e ∈ Example.registry.members.entries, ∃ w : ℚ, 0 < w ∧ e.2.Weight = F64.fin w) ∧
    (∀ e1 ∈ Example.registry.members.entries, ∀ e2 ∈ Example.registry.members.entries,
      e1 ≠ e2 →
      F64.eq (Example.registry.ComputeWeightedScore FloatEnv.exact e1.2 Example.key)
        (Example.registry.ComputeWeightedScore FloatEnv.exact e2.2 Example.key) = false) ∧
    (∀ (qs : quickselect) (enum : List (Sigma fun _ : String => WeightedMember)),
      Example.registry.Enumerates enum →
      Example.registry.GetClosestN FloatEnv.exact qs enum Example.key 1
        = (Example.registry, Outcome.returned ([Example.nodeA], none)) ∧
      Example.registry.LocateKey FloatEnv.exact enum Example.key = some Example.nodeB) ∧
    Example.nodeA ≠ Example.nodeB :=
  ⟨by decide, Example.weights_positive, Example.scores_distinct,
    fun qs enum henum => ⟨Example.closest_one qs enum henum, Example.locate_any enum henum⟩,
    by decide⟩

/-! ## New -/

theorem foldl_add_hasher (ms : List WeightedMember) (r : Rendezvous) :
    (ms.foldl (fun r member => r.add member) r).hasher = r.hasher ∧
    (ms.foldl (fun r member => r.add member) r).config = r.config := by
  induction ms generalizing r with
  | nil => exact ⟨rfl, rfl⟩
  | cons m ms ih =>
    rw [List.foldl_cons]
    exact ih (r.add m)

theorem add_lookup (r : Rendezvous) (m : WeightedMember) (n : String) :
    (r.add m).members.lookup n = if m.String = n then some m else r.members.lookup n := by
  unfold Rendezvous.add
  by_cases h : m.String = n
  · subst h
    simp [AList.lookup_insert]
  · rw [if_neg h]
    exact AList.lookup_insert_ne (Ne.symm h)

/-- After the loop `for _, member := range members { r.add(member) }` a name
maps to the last listed member carrying it, or to what it mapped to before. -/
theorem foldl_add_lookup (ms : List WeightedMember) (r : Rendezvous) (n : String) :
    (ms.foldl (fun r member => r.add member) r).members.lookup n
      = (ms.reverse.find? fun m => decide (m.String = n)).or (r.members.lookup n) := by
  induction ms generalizing r with
  | nil => simp
  | cons m ms ih =>
    rw [List.foldl_cons, ih (r.add m), List.reverse_cons, List.find?_append, Option.or_assoc,
      add_lookup]
    congr 1
    by_cases h : m.String = n
    · simp [h]
    · simp [h]

theorem foldl_add_length (ms : List WeightedMember) (r : Rendezvous)
    (hnodup : (ms.map fun m => m.String).Nodup)
    (hnew : ∀ m ∈ ms, r.members.lookup m.String = none) :
    (ms.foldl (fun r member => r.add member) r).members.entries.length
      = r.members.entries.length + ms.length := by
  induction ms generalizing r with
  | nil => simp
  | cons m ms ih =>
    rw [List.map_cons, List.nodup_cons] at hnodup
    have hm : r.members.lookup m.String = none := hnew m (List.mem_cons_self _ _)
    rw [List.foldl_cons, ih (r.add m) hnodup.2, add_entries_of_not_mem r m hm]
    · simp only [List.length_cons]
      omega
    · intro m2 hm2
      rw [add_lookup, if_neg]
      · exact hnew m2 (List.mem_cons_of_mem _ hm2)
      · intro heq
        exact hnodup.1 (List.mem_map.mpr ⟨m2, hm2, heq.symm⟩)

/-- C18. `New(ms, config)` maps each name to the last member of `ms` carrying
it and holds an entry for exactly the names occurring in `ms`; for pairwise
distinct names `GetMembers` returns `len(ms)` members; `New(nil, config)` is
empty; the hasher is `config.Hasher` when supplied and the default hasher
otherwise. -/
theorem C18_New_postcondition (xxh3 : Hasher) (ms : List WeightedMember) (config : Config) :
    (∀ n : String, (New xxh3 ms config).members.lookup n
        = ms.reverse.find? fun m => decide (m.String = n)) ∧
    (∀ n : String, (∃ v, (New xxh3 ms config).members.lookup n = some v)
        ↔ n ∈ ms.map fun m => m.String) ∧
    ((ms.map fun m => m.String).Nodup →
      ∀ enum, (New xxh3 ms config).Enumerates enum →
        ((New xxh3 ms config).GetMembers enum).length = ms.length) ∧
    (New xxh3 [] config).members.entries = [] ∧
    (New xxh3 ms config).hasher
      = (match config.Hasher with
        | none => xxh3
        | some h => h) ∧
    (New xxh3 ms config).config = config := by
  have hlook : ∀ n : String, (New xxh3 ms config).members.lookup n
      = ms.reverse.find? fun m => decide (m.String = n) := by
    intro n
    unfold New
    rw [foldl_add_lookup]
    simp
  refine ⟨hlook, ?_, ?_, rfl, ?_, ?_⟩
  · intro n
    rw [hlook n]
    constructor
    · rintro ⟨v, hv⟩
      have hmem := List.mem_of_find?_eq_some hv
      have hp := List.find?_some hv
      exact List.mem_map.mpr ⟨v, List.mem_reverse.mp hmem, by simpa using hp⟩
    · intro hn
      obtain ⟨m, hm, hmn⟩ := List.mem_map.mp hn
      have hsome : (ms.reverse.find? fun m => decide (m.String = n)).isSome = true := by
        rw [List.find?_isSome]
        exact ⟨m, List.mem_reverse.mpr hm, by simpa using hmn⟩
      exact Option.isSome_iff_exists.mp hsome
  · intro hnodup enum henum
    rw [GetMembers_eq_map, List.length_map, henum.length_eq]
    unfold New
    rw [foldl_add_length _ _ hnodup]
    · simp
    · intro m _
      simp
  · unfold New
    exact (foldl_add_hasher ms _).1
  · unfold New
    exact (foldl_add_hasher ms _).2

theorem C18_New_postcondition_witness :
    (New Example.hasher [Example.nodeA, Example.heavyA] { Hasher := none }).members.lookup "a"
        = some Example.heavyA ∧
    ([Example.nodeA, Example.heavyA].reverse.find? fun m => decide (m.String = "a"))
        = some Example.heavyA ∧
    (New Example.hasher [Example.nodeA, Example.heavyA] { Hasher := none }).hasher
        = Example.hasher :=
  ⟨by
      rw [(C18_New_postcondition Example.hasher [Example.nodeA, Example.heavyA]
        { Hasher := none }).1 "a"]
      rfl,
    rfl,
    (C18_New_postcondition Example.hasher [Example.nodeA, Example.heavyA]
      { Hasher := none }).2.2.2.2.1⟩

end rendezvous
